import Mathlib

/-!
# Verification of the pyknp-eventgraph event-extraction pipeline

This file gives a shallow embedding of the parts of `pyknp_eventgraph` that the
verified properties talk about, and proves or refutes those properties.

Conventions used throughout:

* A KNP feature string `"<a><b:c>..."` is represented as the list of its chunks
  `["a", "b:c", ...]` (a chunk never contains `<`, `>`).  The pyknp `Features`
  dictionary maps the part of a chunk before the first `:` to the part after it.
* Python `None`-able values become `Option`; code paths that raise an uncaught
  exception in Python are modelled by returning `none` from an `Option`-valued
  function.
* Machine integers are `Nat`/`Int`; KNP tag ids are `Nat` and parent ids `Int`
  (`-1` meaning "no parent").
-/

/-! ## Feature-string helpers (pyknp `Features` semantics)

The library's own `String` operations are defined by well-founded recursion and do
not reduce inside the kernel, so the Python string primitives used by the source are
re-implemented here by structural recursion over `List Char` (obtained from string
literals via `String.data`). -/

/-- Python `str.split(sep)` for a one-character separator. -/
def splitOnChar (sep : Char) : List Char → List (List Char)
  | [] => [[]]
  | c :: cs =>
    match splitOnChar sep cs with
    | [] => [[]]
    | h :: t => if c = sep then [] :: h :: t else (c :: h) :: t

/-- Python `sep.join(parts)` for the separator `":"`. -/
def joinColon : List (List Char) → List Char
  | [] => []
  | [x] => x
  | x :: xs => x ++ ':' :: joinColon xs

/-- The key of a feature chunk: the part before the first `:`. -/
def chunkKey (c : String) : List Char := (splitOnChar ':' c.data).headD []

/-- The value of a feature chunk: the part after the first `:` (empty for a bare flag). -/
def chunkValue (c : String) : List Char := joinColon ((splitOnChar ':' c.data).tail)

/-- Python `key in tag.features`: membership of `k` among the chunk keys. -/
def hasFeatureKey (fs : List String) (k : String) : Bool :=
  fs.any fun c => chunkKey c == k.data

/-- Python `'<c>' in tag.fstring` for a full chunk `c`. -/
def hasChunkExact (fs : List String) (c0 : String) : Bool :=
  fs.any fun c => c.data == c0.data

/-- Python `'<p' in tag.fstring`: some chunk starts with `p`. -/
def hasChunkPrefix (fs : List String) (p : String) : Bool :=
  fs.any fun c => p.data.isPrefixOf c.data

/-- Python `tag.features[k]` (pyknp keeps the last chunk with a given key). -/
def featureValue (fs : List String) (k : String) : Option (List Char) :=
  (fs.reverse.find? fun c => chunkKey c == k.data).map chunkValue

/-! ## Builder state (`builder.py`)

`Builder` in `builder.py` declares two counters and five class-level maps.
Events and tags are identified by opaque `Nat` ids here; only which fields
`reset` clears matters for the verified properties. -/

structure BuilderState where
  ssid : Nat
  evid : Nat
  evid_event_map : List (Nat × Nat)
  sid_tid_event_map : List ((String × Nat) × Nat)
  ssid_tid_event_map : List ((Nat × Nat) × Nat)
  ssid_tid_bid_map : List ((Nat × Nat) × Nat)
  ssid_tid_tag_map : List ((Nat × Nat) × Nat)
deriving DecidableEq, Repr

/-- `Builder.reset` (builder.py lines 22-29): zero the counters and replace the four
sid/ssid-keyed maps by fresh empty dictionaries; `evid_event_map` is not mentioned. -/
def Builder.reset (s : BuilderState) : BuilderState :=
  { s with
    ssid := 0
    evid := 0
    sid_tid_event_map := []
    ssid_tid_event_map := []
    ssid_tid_bid_map := []
    ssid_tid_tag_map := [] }

/-! ## Tags and event segmentation (`sentence.py`, `eventgraph.py`) -/

/-- A KNP tag (basic phrase) as seen by the segmenters and the relation resolver. -/
structure KTag where
  tagId : Nat
  parentId : Int
  dpndtype : String
  features : List String
deriving DecidableEq, Repr

/-- `EventGraph._extract_events_from_sentence` (eventgraph.py lines 171-197), the legacy
segmenter: scan tags keeping `start`/`head` trackers; on every clause-end emit an event
when a head was recorded (otherwise only log an error), then reset all trackers.
Events are returned as `(start, head, end)` tag-id triples. -/
def extractEventsOld : List KTag → Option Nat → Option Nat → List (Nat × Nat × Nat)
  | [], _, _ => []
  | t :: rest, start?, head? =>
    let sv : Nat := match start? with
      | none => t.tagId
      | some s => s
    let head' : Option Nat := if hasChunkExact t.features "節-主辞" then some t.tagId else head?
    if hasChunkPrefix t.features "節-区切" then
      match head' with
      | some h => (sv, h, t.tagId) :: extractEventsOld rest none none
      | none => extractEventsOld rest none none
    else
      extractEventsOld rest (some sv) head'

/-- The scan loop of `SentenceBuilder.__call__` (sentence.py lines 82-94): `start`,
`head` and `end` are each latched by a `not x` guard, and the trackers are reset
only when an event is actually emitted (i.e. inside `if head:`). -/
def scanTagsNew : List KTag → Option Nat → Option Nat → Option Nat → List (Nat × Nat × Nat)
  | [], _, _, _ => []
  | t :: rest, start?, head?, end? =>
    let start' : Option Nat := if start?.isNone then some t.tagId else start?
    let head' : Option Nat :=
      if head?.isNone && hasFeatureKey t.features "節-主辞" then some t.tagId else head?
    if end?.isNone && hasFeatureKey t.features "節-区切" then
      match head' with
      | some h => (start'.getD t.tagId, h, t.tagId) :: scanTagsNew rest none none none
      | none => scanTagsNew rest start' head' (some t.tagId)
    else
      scanTagsNew rest start' head' end?

/-- A sentence whose first tag is a clause-end with no preceding clause-head,
followed by a well-formed clause (head at tag 1, end at tag 2). -/
def c3Tags : List KTag :=
  [⟨0, 1, "D", ["節-区切"]⟩, ⟨1, 2, "D", ["節-主辞"]⟩, ⟨2, -1, "D", ["節-区切"]⟩]

/-! ## Event ids (`event.py` `EventBuilder`, spec-modelled orchestrator) -/

/-- An event as produced by segmentation, with its serial id. -/
structure CEvent where
  evid : Nat
  ssid : Nat
  startTid : Nat
  headTid : Nat
  endTid : Nat
deriving DecidableEq, Repr

/-- `SentenceBuilder.__call__` combined with `EventBuilder.__call__` (event.py lines
598-614): each emitted event receives `Builder.evid` which is then incremented.
Returns the events of the sentence together with the final counter value. -/
def sentenceBuilderGo (ssid : Nat) :
    List KTag → Nat → Option Nat → Option Nat → Option Nat → List CEvent × Nat
  | [], evid, _, _, _ => ([], evid)
  | t :: rest, evid, start?, head?, end? =>
    let start' : Option Nat := if start?.isNone then some t.tagId else start?
    let head' : Option Nat :=
      if head?.isNone && hasFeatureKey t.features "節-主辞" then some t.tagId else head?
    if end?.isNone && hasFeatureKey t.features "節-区切" then
      match head' with
      | some h =>
        let res := sentenceBuilderGo ssid rest (evid + 1) none none none
        (⟨evid, ssid, start'.getD t.tagId, h, t.tagId⟩ :: res.1, res.2)
      | none => sentenceBuilderGo ssid rest evid start' head' (some t.tagId)
    else
      sentenceBuilderGo ssid rest evid start' head' end?

/-- One `SentenceBuilder` call: consume the serial sentence id and scan the tags. -/
def sentenceBuilder (st : BuilderState) (tags : List KTag) : List CEvent × BuilderState :=
  let res := sentenceBuilderGo st.ssid tags st.evid none none none
  (res.1, { st with ssid := st.ssid + 1, evid := res.2 })

/-- Modelled from the spec: the build orchestrator (the `EventGraphBuilder` entry point
is not part of the source tree; only the builders it invokes are) "must be reset at the
start of each independent build", then processes the sentences in order. -/
def buildEvents (st : BuilderState) (doc : List (List KTag)) : List CEvent × BuilderState :=
  doc.foldl
    (fun acc tags =>
      let res := sentenceBuilder acc.2 tags
      (acc.1 ++ res.1, res.2))
    ([], Builder.reset st)

/-- Helper lemma target: evids produced by one sentence starting at counter `k`. -/
theorem sentenceBuilderGo_evids (ssid : Nat) :
    ∀ (tags : List KTag) (evid : Nat) (s? h? e? : Option Nat),
      (sentenceBuilderGo ssid tags evid s? h? e?).1.map CEvent.evid =
        List.range' evid (sentenceBuilderGo ssid tags evid s? h? e?).1.length ∧
      (sentenceBuilderGo ssid tags evid s? h? e?).2 =
        evid + (sentenceBuilderGo ssid tags evid s? h? e?).1.length := by
  intro tags
  induction tags with
  | nil => intro evid s? h? e?; simp [sentenceBuilderGo]
  | cons t rest ih =>
    intro evid s? h? e?
    simp only [sentenceBuilderGo]
    by_cases hc : (e?.isNone && hasFeatureKey t.features "節-区切") = true
    · simp only [hc, if_true]
      cases hh : (if h?.isNone && hasFeatureKey t.features "節-主辞" then some t.tagId else h?) with
      | none => exact ih evid _ _ _
      | some h =>
        obtain ⟨h1, h2⟩ := ih (evid + 1) none none none
        simp only [List.map_cons, List.length_cons]
        refine ⟨?_, ?_⟩
        · rw [List.range'_succ, h1]
        · rw [h2]; omega
    · simp only [hc, if_false]
      exact ih evid _ _ _

/-- List of the serial event ids of all events produced by a build. -/
def evidsOf (p : List CEvent × BuilderState) : List Nat := p.1.map CEvent.evid

theorem buildEvents_go :
    ∀ (doc : List (List KTag)) (acc : List CEvent) (s : BuilderState),
      s.evid = acc.length →
      acc.map CEvent.evid = List.range acc.length →
      (doc.foldl (fun acc tags =>
          let res := sentenceBuilder acc.2 tags
          (acc.1 ++ res.1, res.2)) (acc, s)).1.map CEvent.evid =
        List.range ((doc.foldl (fun acc tags =>
          let res := sentenceBuilder acc.2 tags
          (acc.1 ++ res.1, res.2)) (acc, s)).1.length) := by
  intro doc
  induction doc with
  | nil => intro acc s _ hmap; simpa using hmap
  | cons tags rest ih =>
    intro acc s hlen hmap
    simp only [List.foldl_cons]
    refine ih _ _ ?_ ?_
    · have h := (sentenceBuilderGo_evids s.ssid tags s.evid none none none).2
      simp only [sentenceBuilder, List.length_append]
      rw [← hlen]
      exact h
    · have h1 := (sentenceBuilderGo_evids s.ssid tags s.evid none none none).1
      simp only [sentenceBuilder, List.map_append, hmap, h1]
      rw [List.range_eq_range', List.range_eq_range', List.length_append, ← hlen]
      have h2 := List.range'_append_1 0 s.evid
        ((sentenceBuilderGo s.ssid tags s.evid none none none).1.length)
      rw [Nat.zero_add] at h2
      rw [h2, Nat.add_comm]

/-- Claim C9: `Builder.reset` sets the class-level counters `ssid` and `evid` to 0 and
replaces `sid_tid_event_map`, `ssid_tid_event_map`, `ssid_tid_bid_map` and
`ssid_tid_tag_map` with empty dictionaries, while `evid_event_map` is left unchanged,
so every entry registered before the reset is still present afterwards. -/
theorem c9_reset_effects (s : BuilderState) :
    (Builder.reset s).ssid = 0 ∧ (Builder.reset s).evid = 0 ∧
    (Builder.reset s).sid_tid_event_map = [] ∧
    (Builder.reset s).ssid_tid_event_map = [] ∧
    (Builder.reset s).ssid_tid_bid_map = [] ∧
    (Builder.reset s).ssid_tid_tag_map = [] ∧
    (Builder.reset s).evid_event_map = s.evid_event_map ∧
    (∀ kv ∈ s.evid_event_map, kv ∈ (Builder.reset s).evid_event_map) :=
  ⟨rfl, rfl, rfl, rfl, rfl, rfl, rfl, fun _ h => h⟩

/-- Claim C9 witness: the theorem applied at a concrete builder state. -/
theorem c9_reset_effects_witness :
    (Builder.reset ⟨3, 4, [(0, 7)], [(("w1", 2), 0)], [((0, 2), 0)], [((0, 2), 5)],
        [((0, 2), 2)]⟩).evid_event_map = [(0, 7)] :=
  (c9_reset_effects ⟨3, 4, [(0, 7)], [(("w1", 2), 0)], [((0, 2), 0)], [((0, 2), 5)],
    [((0, 2), 2)]⟩).2.2.2.2.2.2.1

/-- Claim C3: on a sentence whose first tag is a clause-end with no recorded clause-head,
the legacy extractor (`EventGraph._extract_events_from_sentence`) drops the malformed
segment, resets its trackers and still emits the later well-formed clause `(1, 1, 2)`,
exactly as the claim states; the rewritten scan loop of `SentenceBuilder.__call__`
instead leaves its `end` tracker latched and emits no event at all for the rest of the
sentence, contradicting the claim. -/
theorem c3_headless_clause_end :
    extractEventsOld c3Tags none none = [(1, 1, 2)] ∧
    scanTagsNew c3Tags none none none = [] := by
  constructor <;> decide

/-- Claim C6: a build resets the serial counters first, so for any prior builder state
the events of the build are numbered exactly `0, ..., N-1` in creation order, and the
same holds for a second build started from the state the first build left behind. -/
theorem c6_evid_density (st : BuilderState) (doc doc2 : List (List KTag)) :
    evidsOf (buildEvents st doc) = List.range (buildEvents st doc).1.length ∧
    evidsOf (buildEvents (buildEvents st doc).2 doc2) =
      List.range (buildEvents (buildEvents st doc).2 doc2).1.length := by
  constructor <;>
    exact buildEvents_go _ [] _ rfl rfl

/-! ## Relation resolution (`relation.py`, `RelationsBuilder`) -/

/-- An event as seen by the relation resolver: its serial id, sentence id, head tag
and end tag. -/
structure REvent where
  evid : Nat
  ssid : Int
  head : KTag
  endTag : KTag
deriving DecidableEq, Repr

/-- A relation as produced by `RelationBuilder.__call__` (modifier/head events are
recorded by their serial ids). -/
structure MRel where
  modifierEvid : Nat
  headEvid : Nat
  label : List Char
  surf : List Char
  headTid : Int
  reliable : Bool
deriving DecidableEq, Repr

/-- Look a tag up by its id inside a sentence (pyknp resolves `tag.parent` objects). -/
def tagById (tags : List KTag) (i : Int) : Option KTag :=
  tags.find? fun t => (t.tagId : Int) == i

/-- `tag.parent` in pyknp: `None` for the sentence root (`parent_id == -1`). -/
def parentTag (tags : List KTag) (t : KTag) : Option KTag :=
  if t.parentId < 0 then none else tagById tags t.parentId

/-- The `while parent_tag:` walk of `RelationsBuilder._find_parent` (relation.py lines
167-175): at each tag, scan the later-created events of the sentence in order and stop
at the first whose head or end tag has this id; otherwise climb to the tag's parent.
The fuel bounds the walk (KNP parent ids strictly increase, so `tags.length + 1` steps
always suffice). -/
def findParentGo (tags : List KTag) (sentEvents : List REvent) (evid : Nat) :
    Nat → Option KTag → Option REvent
  | _, none => none
  | 0, some _ => none
  | fuel + 1, some pt =>
    match sentEvents.find? (fun e => decide (evid < e.evid) &&
        (pt.tagId == e.head.tagId || pt.tagId == e.endTag.tagId)) with
    | some e => some e
    | none => findParentGo tags sentEvents evid fuel (parentTag tags pt)

def findParent (tags : List KTag) (sentEvents : List REvent) (ev : REvent) : Option REvent :=
  findParentGo tags sentEvents ev.evid (tags.length + 1) (parentTag tags ev.head)

/-- Python `[...][-2:]`. -/
def lastTwo (l : List Nat) : List Nat := l.drop (l.length - 2)

/-- The chunks matched by `re.findall('<談話関係[;:](.+?)>', fstring)`: chunks that
continue after a `談話関係;`/`談話関係:` prefix, with the prefix removed. -/
def discourseChunks (fs : List String) : List (List Char) :=
  fs.filterMap fun c =>
    if ("談話関係;".data.isPrefixOf c.data || "談話関係:".data.isPrefixOf c.data)
        && decide (5 < c.data.length) then
      some (c.data.drop 5)
    else none

/-- The chunks matched by `re.findall('<節-機能-(.+?)>', fstring)`. -/
def clauseFunctionChunks (fs : List String) : List (List Char) :=
  fs.filterMap fun c =>
    if "節-機能-".data.isPrefixOf c.data && decide (5 < c.data.length) then
      some (c.data.drop 5)
    else none

/-- Python `int(s)` restricted to an optional sign followed by decimal digits
(the only shapes that occur in KNP feature annotations). -/
def parseDigitsGo (acc : Nat) : List Char → Option Nat
  | [] => some acc
  | c :: cs =>
    if '0' ≤ c ∧ c ≤ '9' then parseDigitsGo (acc * 10 + (c.toNat - '0'.toNat)) cs else none

def parseInt (l : List Char) : Option Int :=
  match l with
  | [] => none
  | '-' :: rest =>
    if rest.isEmpty then none else (parseDigitsGo 0 rest).map fun n => -(n : Int)
  | '+' :: rest =>
    if rest.isEmpty then none else (parseDigitsGo 0 rest).map fun n => (n : Int)
  | _ => (parseDigitsGo 0 l).map fun n => (n : Int)

/-- One discourse annotation `sdist/tid/sid:label`, parsed as in relation.py lines
140-142 (`tmp, label = x.split(':')`, `sdist, tid, sid = tmp.split('/')`, `int(...)`);
a shape on which Python would raise is mapped to `none`. -/
def parseDiscourse (x : List Char) : Option (Int × Int × List Char) :=
  match splitOnChar ':' x with
  | [tmp, label] =>
    match splitOnChar '/' tmp with
    | [sd, td, _sid] =>
      match parseInt sd, parseInt td with
      | some sdist, some tid => some (sdist, tid, label)
      | _, _ => none
    | _ => none
  | _ => none

/-- Fail-fast traversal: Python loops that call a raising parser on each element. -/
def mapMOpt (f : α → Option β) : List α → Option (List β)
  | [] => some []
  | a :: as =>
    match f a, mapMOpt f as with
    | some b, some bs => some (b :: bs)
    | _, _ => none

/-- The relations produced by the discourse-relation block (relation.py lines 139-145):
one relation per annotation whose `(ssid + sdist, tid)` key resolves through
`Builder.stid_event_map`, with default surf `''`, head_tid `-1`, reliable `False`. -/
def discourseRels (stidEventMap : Int × Int → Option Nat) (ev : REvent)
    (anns : List (Int × Int × List Char)) : List MRel :=
  anns.filterMap fun a =>
    (stidEventMap (ev.ssid + a.1, a.2.1)).map fun hev =>
      ⟨ev.evid, hev, "談話関係:".data ++ a.2.2, [], -1, false⟩

/-- The discourse-relation block (relation.py lines 139-145), run only when
`relations` is still empty. -/
def cascadeStep1 (stidEventMap : Int × Int → Option Nat) (ev : REvent)
    (rels0 : List MRel) : Option (List MRel) :=
  if rels0.isEmpty then
    (mapMOpt parseDiscourse (discourseChunks ev.endTag.features)).map
      (discourseRels stidEventMap ev)
  else some rels0

/-- Parsing of one clausal-function annotation (relation.py lines 150-153):
`label, surf = x.split(':')` when a `:` is present, otherwise `label, surf = x, ''`. -/
def parseClauseFunction (cf : List Char) : Option (List Char × List Char) :=
  if cf.contains ':' then
    match splitOnChar ':' cf with
    | [label, surf] => some (label, surf)
    | _ => none
  else some (cf, [])

/-- The clausal-function block (relation.py lines 148-155). -/
def cascadeStep2 (ev : REvent) (parent? : Option REvent) (reliable : Bool)
    (rels1 : List MRel) : Option (List MRel) :=
  if rels1.isEmpty then
    match parent? with
    | some p =>
      mapMOpt (fun cf =>
          (parseClauseFunction cf).map fun ls =>
            (⟨ev.evid, p.evid, ls.1, ls.2, ev.endTag.parentId, reliable⟩ : MRel))
        (clauseFunctionChunks ev.endTag.features)
    | none => some rels1
  else some rels1

/-- The parallel and plain-dependency blocks (relation.py lines 157-164). -/
def cascadeStep34 (ev : REvent) (parent? : Option REvent) (reliable : Bool)
    (rels2 : List MRel) : List MRel :=
  let rels3 :=
    if rels2.isEmpty then
      match parent? with
      | some p =>
        if ev.endTag.dpndtype == "P" then
          [⟨ev.evid, p.evid, "並列".data, [], -1, reliable⟩]
        else []
      | none => []
    else rels2
  if rels3.isEmpty then
    match parent? with
    | some p => [⟨ev.evid, p.evid, "係り受け".data, [], -1, reliable⟩]
    | none => []
  else rels3

/-- The cascade below the adnominal/sentential-complement rules
(relation.py lines 138-165): each block runs only when `relations` is still empty. -/
def cascadeTail (stidEventMap : Int × Int → Option Nat) (ev : REvent)
    (parent? : Option REvent) (reliable : Bool) (rels0 : List MRel) : Option (List MRel) :=
  (cascadeStep1 stidEventMap ev rels0).bind fun rels1 =>
    (cascadeStep2 ev parent? reliable rels1).map fun rels2 =>
      cascadeStep34 ev parent? reliable rels2

/-- `RelationsBuilder._get_outgoing_relations` (relation.py lines 115-165): find the
parent event, compute the ambiguity flag (`[E, parent] == sentence events[-2:]`), then
run the label cascade.  `none` models an uncaught Python exception (the `KeyError`
from `event.end.features['節-区切']` when the feature is absent and a parent exists,
or a malformed annotation). -/
def getOutgoingRelations (tags : List KTag) (sentEvents : List REvent)
    (stidEventMap : Int × Int → Option Nat) (ev : REvent) : Option (List MRel) :=
  match findParent tags sentEvents ev with
  | none => cascadeTail stidEventMap ev none false []
  | some p =>
    let reliable : Bool := lastTwo (sentEvents.map REvent.evid) == [ev.evid, p.evid]
    match featureValue ev.endTag.features "節-区切" with
    | none => none
    | some cb =>
      let rels0 : List MRel :=
        (if cb == "連体修飾".data then
          [⟨ev.evid, p.evid, "連体修飾".data, [], ev.endTag.parentId, reliable⟩]
        else []) ++
        (if cb == "補文".data then
          [⟨ev.evid, p.evid, "補文".data, [], ev.endTag.parentId, reliable⟩]
        else [])
      cascadeTail stidEventMap ev (some p) reliable rels0

/-- Claim C4: when relation resolution finds a parent and the end phrase carries both
the adnominal clause-break feature and a parallel dependency type, exactly one relation
is emitted and its label is the adnominal one (連体修飾), not the parallel one: the
cascade applies rules in priority order and the first match wins. -/
theorem c4_adnominal_priority (tags : List KTag) (sentEvents : List REvent)
    (stidEventMap : Int × Int → Option Nat) (ev p : REvent)
    (hp : findParent tags sentEvents ev = some p)
    (hcb : featureValue ev.endTag.features "節-区切" = some "連体修飾".data)
    (_hpar : ev.endTag.dpndtype = "P") :
    getOutgoingRelations tags sentEvents stidEventMap ev =
      some [⟨ev.evid, p.evid, "連体修飾".data, [], ev.endTag.parentId,
        lastTwo (sentEvents.map REvent.evid) == [ev.evid, p.evid]⟩] := by
  have h2 : ("連体修飾".data == "補文".data) = false := by decide
  simp only [getOutgoingRelations]
  rw [hp, hcb]
  simp only [beq_self_eq_true, if_true, h2, if_false, Bool.false_eq_true, List.append_nil]
  simp [cascadeTail, cascadeStep1, cascadeStep2, cascadeStep34]

def c4Tag0 : KTag := ⟨0, 1, "P", ["節-区切:連体修飾"]⟩

def c4Tag1 : KTag := ⟨1, -1, "D", ["節-主辞", "節-区切"]⟩

def c4Ev0 : REvent := ⟨0, 0, c4Tag0, c4Tag0⟩

def c4Ev1 : REvent := ⟨1, 0, c4Tag1, c4Tag1⟩

/-- Claim C4 witness: a two-event sentence in which the first event ends in an
adnominal clause break with a parallel dependency type; exactly the adnominal
relation is emitted. -/
theorem c4_adnominal_priority_witness :
    getOutgoingRelations [c4Tag0, c4Tag1] [c4Ev0, c4Ev1] (fun _ => none) c4Ev0 =
      some [⟨0, 1, "連体修飾".data, [], 1, true⟩] := by
  have h := c4_adnominal_priority [c4Tag0, c4Tag1] [c4Ev0, c4Ev1] (fun _ => none)
    c4Ev0 c4Ev1 (by decide) (by decide) (by decide)
  rw [h]
  decide

/-- Claim C5: when the end phrase matched neither the adnominal nor the
sentential-complement rule, each discourse annotation whose `(ssid + sdist, tid)` key
resolves through the stid→event index yields exactly one relation with reliability
forced false and head_tid -1; and when at least one such relation is emitted, the
clausal-function, parallel and plain-dependency rules are not applied. -/
theorem c5_discourse_relations (tags : List KTag) (sentEvents : List REvent)
    (stidEventMap : Int × Int → Option Nat) (ev : REvent) (cb : List Char)
    (anns : List (Int × Int × List Char))
    (hcb : featureValue ev.endTag.features "節-区切" = some cb)
    (h1 : cb ≠ "連体修飾".data) (h2 : cb ≠ "補文".data)
    (hparse : mapMOpt parseDiscourse (discourseChunks ev.endTag.features) = some anns)
    (hne : discourseRels stidEventMap ev anns ≠ []) :
    getOutgoingRelations tags sentEvents stidEventMap ev =
      some (discourseRels stidEventMap ev anns) ∧
    ∀ r ∈ discourseRels stidEventMap ev anns,
      r.reliable = false ∧ r.headTid = -1 ∧ r.modifierEvid = ev.evid := by
  have hb1 : (cb == "連体修飾".data) = false := by
    simp [beq_eq_false_iff_ne, h1]
  have hb2 : (cb == "補文".data) = false := by
    simp [beq_eq_false_iff_ne, h2]
  have hemp : ¬ (discourseRels stidEventMap ev anns).isEmpty = true := by
    simpa [List.isEmpty_iff] using hne
  have hempF : (discourseRels stidEventMap ev anns).isEmpty = false := by
    cases h : (discourseRels stidEventMap ev anns).isEmpty with
    | false => rfl
    | true => exact absurd (List.isEmpty_iff.mp h) hne
  constructor
  · simp only [getOutgoingRelations]
    cases hp : findParent tags sentEvents ev with
    | none =>
      simp only [cascadeTail, cascadeStep1, List.isEmpty_nil, if_true, hparse,
        Option.map_some', Option.some_bind, cascadeStep2, hempF, Bool.false_eq_true,
        if_false, cascadeStep34]
    | some p =>
      rw [hcb]
      simp only [hb1, hb2, Bool.false_eq_true, if_false, List.append_nil,
        cascadeTail, cascadeStep1, List.isEmpty_nil, if_true, hparse, Option.map_some',
        Option.some_bind, cascadeStep2, hempF, cascadeStep34]
  · intro r hr
    simp only [discourseRels, List.mem_filterMap] at hr
    obtain ⟨a, _, ha⟩ := hr
    cases hm : stidEventMap (ev.ssid + a.1, a.2.1) with
    | none => rw [hm] at ha; simp at ha
    | some hev =>
      rw [hm] at ha
      simp only [Option.map_some', Option.some.injEq] at ha
      cases ha
      exact ⟨rfl, rfl, rfl⟩

def c5Tag : KTag := ⟨0, -1, "D", ["節-主辞", "節-区切", "談話関係;-1/3/w01:対比"]⟩

def c5Ev : REvent := ⟨1, 1, c5Tag, c5Tag⟩

def c5Map : Int × Int → Option Nat := fun k => if k = (0, 3) then some 0 else none

/-- Claim C5 witness: an event in the second sentence carrying the discourse
annotation `-1/3/w01:対比` produces exactly one relation `談話関係:対比` with
reliable false and head_tid -1, resolved through the stid→event index. -/
theorem c5_discourse_relations_witness :
    getOutgoingRelations [c5Tag] [c5Ev] c5Map c5Ev =
      some [⟨1, 0, "談話関係:対比".data, [], -1, false⟩] := by
  have h := (c5_discourse_relations [c5Tag] [c5Ev] c5Map c5Ev []
    [((-1 : Int), (3 : Int), "対比".data)]
    (by decide) (by decide) (by decide) (by decide) (by decide)).1
  rw [h]
  decide

/-- The parent event returned by the dependency walk is a later event of the sentence. -/
theorem findParentGo_mem (tags : List KTag) (sentEvents : List REvent) (evid : Nat) :
    ∀ (fuel : Nat) (pt? : Option KTag) (p : REvent),
      findParentGo tags sentEvents evid fuel pt? = some p →
      p ∈ sentEvents ∧ evid < p.evid := by
  intro fuel
  induction fuel with
  | zero =>
    intro pt? p h
    cases pt? <;> simp [findParentGo] at h
  | succ n ih =>
    intro pt? p h
    cases pt? with
    | none => simp [findParentGo] at h
    | some pt =>
      rw [findParentGo] at h
      cases hf : sentEvents.find? (fun e => decide (evid < e.evid) &&
          (pt.tagId == e.head.tagId || pt.tagId == e.endTag.tagId)) with
      | none =>
        rw [hf] at h
        exact ih (parentTag tags pt) p h
      | some e =>
        rw [hf] at h
        cases h
        have hmem := List.mem_of_find?_eq_some hf
        have hpred := List.find?_some hf
        simp only [Bool.and_eq_true, decide_eq_true_eq] at hpred
        exact ⟨hmem, hpred.1⟩

theorem findParent_mem (tags : List KTag) (sentEvents : List REvent) (ev : REvent)
    (p : REvent) (h : findParent tags sentEvents ev = some p) :
    p ∈ sentEvents ∧ ev.evid < p.evid :=
  findParentGo_mem tags sentEvents ev.evid _ _ p h

/-- For a strictly increasing list, `l[-2:] == [a, b]` holds exactly when `b` is the
largest element and `a` is the next later element after which nothing intervenes. -/
theorem lastTwo_eq_iff (l : List Nat) (a b : Nat)
    (hs : l.Chain' (· < ·)) (ha : a ∈ l) (hb : b ∈ l) :
    lastTwo l = [a, b] ↔
      (a < b ∧ (∀ x ∈ l, ¬(a < x ∧ x < b)) ∧ (∀ x ∈ l, x ≤ b)) := by
  have hpw : l.Pairwise (· < ·) := List.chain'_iff_pairwise.mp hs
  constructor
  · intro h
    have hlen : 2 ≤ l.length := by
      by_contra hc
      push_neg at hc
      have : (lastTwo l).length = l.length - (l.length - 2) := by
        simp [lastTwo]
      rw [h] at this
      simp at this
      omega
    have hsplit : l.take (l.length - 2) ++ [a, b] = l := by
      conv_rhs => rw [← List.take_append_drop (l.length - 2) l]
      rw [← h]
      rfl
    rw [← hsplit] at hpw
    rw [List.pairwise_append] at hpw
    obtain ⟨_, hpw2, hcross⟩ := hpw
    have hab : a < b := by
      simp [List.pairwise_cons] at hpw2
      exact hpw2
    refine ⟨hab, ?_, ?_⟩
    · intro x hx
      rw [← hsplit] at hx
      rcases List.mem_append.mp hx with hx1 | hx2
      · have := hcross x hx1 a (by simp)
        omega
      · simp at hx2
        rcases hx2 with rfl | rfl <;> omega
    · intro x hx
      rw [← hsplit] at hx
      rcases List.mem_append.mp hx with hx1 | hx2
      · have := hcross x hx1 b (by simp)
        omega
      · simp at hx2
        rcases hx2 with rfl | rfl <;> omega
  · rintro ⟨hab, hbet, hmax⟩
    rcases List.eq_nil_or_concat l with rfl | ⟨init, y, rfl⟩
    · simp at hb
    rw [List.concat_eq_append] at hpw ha hb hbet hmax ⊢
    have hyb : y ≤ b := hmax y (by simp)
    have hby : b = y := by
      rcases List.mem_append.mp hb with hbi | hbl
      · rw [List.pairwise_append] at hpw
        have := hpw.2.2 b hbi y (by simp)
        omega
      · simpa using hbl
    subst hby
    have hainit : a ∈ init := by
      rcases List.mem_append.mp ha with h1 | h2
      · exact h1
      · simp at h2
        omega
    rcases List.eq_nil_or_concat init with rfl | ⟨init2, w, rfl⟩
    · simp at hainit
    rw [List.concat_eq_append] at hpw hainit hbet ⊢
    have hwb : w < b := by
      rw [List.pairwise_append] at hpw
      exact hpw.2.2 w (by simp) b (by simp)
    have haw : a = w := by
      rcases List.mem_append.mp hainit with h1 | h2
      · rw [List.pairwise_append] at hpw
        have hpwinit := hpw.1
        rw [List.pairwise_append] at hpwinit
        have haw' : a < w := hpwinit.2.2 a h1 w (by simp)
        exact absurd ⟨haw', hwb⟩ (hbet w (by simp))
      · simpa using h2
    subst haw
    have hre : init2 ++ [a] ++ [b] = init2 ++ [a, b] := by simp
    rw [hre, lastTwo, List.length_append,
      show init2.length + [a, b].length - 2 = init2.length by simp]
    exact List.drop_left init2 [a, b]

/-- Every element of a successful `mapMOpt` run comes from applying `f` to an input. -/
theorem mapMOpt_mem {α β : Type} (f : α → Option β) :
    ∀ (l : List α) (l' : List β), mapMOpt f l = some l' →
      ∀ b ∈ l', ∃ a ∈ l, f a = some b := by
  intro l
  induction l with
  | nil =>
    intro l' h b hb
    simp only [mapMOpt, Option.some.injEq] at h
    subst h
    simp at hb
  | cons a as ih =>
    intro l' h b hb
    simp only [mapMOpt] at h
    cases hfa : f a with
    | none => rw [hfa] at h; simp at h
    | some b0 =>
      rw [hfa] at h
      cases hrest : mapMOpt f as with
      | none => rw [hrest] at h; simp at h
      | some bs =>
        rw [hrest] at h
        simp only [Option.some.injEq] at h
        subst h
        rcases hb with _ | hb'
        · exact ⟨a, by simp, hfa⟩
        · obtain ⟨a', ha', hfa'⟩ := ih bs hrest b (by assumption)
          exact ⟨a', by simp [ha'], hfa'⟩

/-- Every relation emitted below the adnominal/complement rules either is a discourse
relation (label prefixed by `談話関係:`) or carries exactly the ambiguity flag that was
computed before the cascade, provided the seed relations do. -/
theorem cascadeTail_reliable (stidEventMap : Int × Int → Option Nat) (ev : REvent)
    (parent? : Option REvent) (reliable : Bool) (rels0 : List MRel)
    (h0 : ∀ r ∈ rels0, r.reliable = reliable) (rels : List MRel)
    (hres : cascadeTail stidEventMap ev parent? reliable rels0 = some rels)
    (r : MRel) (hr : r ∈ rels)
    (hnd : ¬("談話関係:".data.isPrefixOf r.label = true)) :
    r.reliable = reliable := by
  unfold cascadeTail at hres
  rw [Option.bind_eq_some] at hres
  obtain ⟨rels1, h1, h2⟩ := hres
  rw [Option.map_eq_some'] at h2
  obtain ⟨rels2, h2a, h2b⟩ := h2
  subst h2b
  have hstep2 : (∀ x ∈ rels1, x.reliable = reliable) → (∀ x ∈ rels2, x.reliable = reliable) := by
    intro hr1
    unfold cascadeStep2 at h2a
    by_cases he1 : rels1.isEmpty
    · rw [if_pos he1] at h2a
      cases parent? with
      | none =>
        cases h2a
        exact hr1
      | some p =>
        intro x hx
        obtain ⟨cf, _, hcf⟩ := mapMOpt_mem _ _ _ h2a x hx
        rw [Option.map_eq_some'] at hcf
        obtain ⟨ls, _, hxe⟩ := hcf
        rw [← hxe]
    · rw [if_neg he1] at h2a
      cases h2a
      exact hr1
  have hstep34 : (∀ x ∈ rels2, x.reliable = reliable) →
      ∀ x ∈ cascadeStep34 ev parent? reliable rels2, x.reliable = reliable := by
    intro hr2 x hx
    by_cases he2 : rels2.isEmpty
    · rw [List.isEmpty_iff.mp he2] at hx
      cases parent? with
      | none => simp [cascadeStep34] at hx
      | some p =>
        by_cases hdp : (ev.endTag.dpndtype == "P") = true
        · simp [cascadeStep34, hdp] at hx
          subst hx
          rfl
        · simp [cascadeStep34, hdp] at hx
          subst hx
          rfl
    · have hne2 : rels2.isEmpty = false := by
        cases hh : rels2.isEmpty with
        | false => rfl
        | true => exact absurd hh he2
      simp only [cascadeStep34, hne2, Bool.false_eq_true, if_false] at hx
      exact hr2 x hx
  -- now discharge using how rels1 was produced
  unfold cascadeStep1 at h1
  by_cases he0 : rels0.isEmpty
  · rw [if_pos he0] at h1
    rw [Option.map_eq_some'] at h1
    obtain ⟨anns, _, hrels1⟩ := h1
    by_cases hed : (discourseRels stidEventMap ev anns).isEmpty
    · have hr1 : ∀ x ∈ rels1, x.reliable = reliable := by
        subst hrels1
        intro x hx
        rw [List.isEmpty_iff.mp hed] at hx
        simp at hx
      exact hstep34 (hstep2 hr1) r hr
    · -- the discourse list is non-empty: it survives to the end, but every
      -- element has the discourse label prefix, contradicting hnd
      subst hrels1
      have h2a' : rels2 = discourseRels stidEventMap ev anns := by
        unfold cascadeStep2 at h2a
        have hne1 : (discourseRels stidEventMap ev anns).isEmpty = false := by
          cases hh : (discourseRels stidEventMap ev anns).isEmpty with
          | false => rfl
          | true => exact absurd hh hed
        rw [hne1] at h2a
        simp only [Bool.false_eq_true, if_false] at h2a
        exact (Option.some.injEq _ _ ▸ h2a).symm
      subst h2a'
      have hrr : r ∈ discourseRels stidEventMap ev anns := by
        unfold cascadeStep34 at hr
        have hne1 : (discourseRels stidEventMap ev anns).isEmpty = false := by
          cases hh : (discourseRels stidEventMap ev anns).isEmpty with
          | false => rfl
          | true => exact absurd hh hed
        have hnn : discourseRels stidEventMap ev anns ≠ [] := by
          intro hh
          rw [hh] at hne1
          simp at hne1
        rw [hne1] at hr
        simpa [hnn] using hr
      simp only [discourseRels, List.mem_filterMap] at hrr
      obtain ⟨a, _, ha⟩ := hrr
      rw [Option.map_eq_some'] at ha
      obtain ⟨hev, _, hre⟩ := ha
      exfalso
      apply hnd
      rw [← hre]
      rw [List.isPrefixOf_iff_prefix]
      exact List.prefix_append _ _
  · rw [if_neg he0] at h1
    cases h1
    exact hstep34 (hstep2 h0) r hr

/-- Claim C2 (amended): when relation resolution finds a parent event `p` for `ev`,
the reliable flag recorded on every emitted syntactic (non-discourse) relation is true
iff `ev` and `p` are the two most recent events of the sentence: `p` is the next later
event in serial-id order after `ev` *and* no event of the sentence is later than `p`.
(The claim as frozen omits the second condition; see the counterexample.) -/
theorem c2_reliability_amended (tags : List KTag) (sentEvents : List REvent)
    (stidEventMap : Int × Int → Option Nat) (ev p : REvent) (rels : List MRel)
    (hp : findParent tags sentEvents ev = some p)
    (hres : getOutgoingRelations tags sentEvents stidEventMap ev = some rels)
    (hinc : (sentEvents.map REvent.evid).Chain' (· < ·))
    (hev : ev.evid ∈ sentEvents.map REvent.evid)
    (r : MRel) (hr : r ∈ rels)
    (hnd : ¬("談話関係:".data.isPrefixOf r.label = true)) :
    r.reliable = true ↔
      (ev.evid < p.evid ∧
       (∀ x ∈ sentEvents.map REvent.evid, ¬(ev.evid < x ∧ x < p.evid)) ∧
       (∀ x ∈ sentEvents.map REvent.evid, x ≤ p.evid)) := by
  simp only [getOutgoingRelations, hp] at hres
  cases hcb : featureValue ev.endTag.features "節-区切" with
  | none => rw [hcb] at hres; simp at hres
  | some cb =>
    rw [hcb] at hres
    have hrel : r.reliable = (lastTwo (sentEvents.map REvent.evid) == [ev.evid, p.evid]) := by
      apply cascadeTail_reliable stidEventMap ev (some p) _ _ ?h0 rels hres r hr hnd
      intro x hx
      rcases List.mem_append.mp hx with h | h
      · by_cases hc : (cb == "連体修飾".data) = true
        · rw [if_pos hc] at h
          simp only [List.mem_singleton] at h
          subst h
          rfl
        · rw [if_neg hc] at h
          simp at h
      · by_cases hc : (cb == "補文".data) = true
        · rw [if_pos hc] at h
          simp only [List.mem_singleton] at h
          subst h
          rfl
        · rw [if_neg hc] at h
          simp at h
    rw [hrel, beq_iff_eq]
    have hpm := findParent_mem tags sentEvents ev p hp
    exact lastTwo_eq_iff (sentEvents.map REvent.evid) ev.evid p.evid hinc hev
      (List.mem_map_of_mem REvent.evid hpm.1)

def c2Tag0 : KTag := ⟨0, 1, "D", ["節-主辞", "節-区切"]⟩

def c2Tag1 : KTag := ⟨1, 2, "D", ["節-主辞", "節-区切"]⟩

def c2Tag2 : KTag := ⟨2, -1, "D", ["節-主辞", "節-区切"]⟩

def c2Tags : List KTag := [c2Tag0, c2Tag1, c2Tag2]

def c2Ev0 : REvent := ⟨0, 0, c2Tag0, c2Tag0⟩

def c2Ev1 : REvent := ⟨1, 0, c2Tag1, c2Tag1⟩

def c2Ev2 : REvent := ⟨2, 0, c2Tag2, c2Tag2⟩

def c2Events : List REvent := [c2Ev0, c2Ev1, c2Ev2]

/-- Claim C2 counterexample: in a three-event sentence where event 0 resolves to
parent event 1, the parent *is* the next later event in serial-id order (no event id
lies strictly between 0 and 1), yet the emitted relation's reliable flag is false,
because the code instead tests whether `[E, parent]` are the last two events of the
sentence (`sent_evids[-2:]`), and here event 2 comes after the parent. -/
theorem c2_counterexample :
    findParent c2Tags c2Events c2Ev0 = some c2Ev1 ∧
    (∀ x ∈ c2Events.map REvent.evid, ¬(c2Ev0.evid < x ∧ x < c2Ev1.evid)) ∧
    getOutgoingRelations c2Tags c2Events (fun _ => none) c2Ev0 =
      some [⟨0, 1, "係り受け".data, [], -1, false⟩] :=
  ⟨by decide, by decide, by decide⟩

/-- Claim C2 witness: the amended theorem applied at the counterexample input;
the reliable flag is correctly characterised once "no later sibling after the
parent" is added. -/
theorem c2_reliability_amended_witness :
    (⟨0, 1, "係り受け".data, [], -1, false⟩ : MRel).reliable = true ↔
      (c2Ev0.evid < c2Ev1.evid ∧
       (∀ x ∈ c2Events.map REvent.evid, ¬(c2Ev0.evid < x ∧ x < c2Ev1.evid)) ∧
       (∀ x ∈ c2Events.map REvent.evid, x ≤ c2Ev1.evid)) :=
  c2_reliability_amended c2Tags c2Events (fun _ => none) c2Ev0 c2Ev1
    [⟨0, 1, "係り受け".data, [], -1, false⟩]
    (by decide) (by decide)
    (by simp [c2Events, c2Ev0, c2Ev1, c2Ev2, List.chain'_cons]) (by decide)
    ⟨0, 1, "係り受け".data, [], -1, false⟩ (by decide) (by decide)

/-! ## Morpheme truncation (`predicate.py` / `argument.py` `_truncate_mrphs`) -/

/-- A JUMAN morpheme with the fields the truncation rules inspect. -/
structure Mrph where
  midasi : String
  genkei : String
  hinsi : String
  fstring : List String
deriving DecidableEq, Repr

/-- `Predicate._truncate_mrphs` (predicate.py lines 191-209): scan indices from the
end; drop a trailing です after an adjective, drop a trailing じゃ after a conjugated
word, otherwise cut just after the last conjugated/final-content morpheme (except のだ
/んだ); if nothing matches return the list unchanged.  The fuel argument is the
current index + 1. -/
def predTruncateGo (mrphs : List Mrph) : Nat → List Mrph
  | 0 => mrphs
  | i + 1 =>
    match mrphs.get? i with
    | none => predTruncateGo mrphs i
    | some m =>
      if m.hinsi == "助動詞" && m.genkei == "です" && decide (0 < i) &&
          (((mrphs.get? (i - 1)).map Mrph.hinsi).getD "" == "形容詞") then
        mrphs.take i
      else if m.hinsi == "判定詞" && m.midasi == "じゃ" && decide (0 < i) &&
          (((mrphs.get? (i - 1)).map fun p => hasChunkExact p.fstring "活用語").getD false) then
        mrphs.take i
      else if (hasChunkExact m.fstring "活用語" || hasChunkExact m.fstring "用言意味表記末尾")
          && !(m.genkei == "のだ") && !(m.genkei == "んだ") then
        mrphs.take (i + 1)
      else
        predTruncateGo mrphs i

def predTruncate (mrphs : List Mrph) : List Mrph := predTruncateGo mrphs mrphs.length

/-- `mrph.hinsi not in ('助詞', '特殊', '判定詞')`. -/
def isContentWord (m : Mrph) : Bool :=
  !(m.hinsi == "助詞" || m.hinsi == "特殊" || m.hinsi == "判定詞")

/-- `Argument._truncate_mrphs` (argument.py lines 197-212): keep morphemes until the
first function word that follows a content word. -/
def argTruncateGo : List Mrph → Bool → List Mrph
  | [], _ => []
  | m :: rest, seen =>
    if !isContentWord m && seen then []
    else m :: argTruncateGo rest (seen || isContentWord m)

def argTruncate (mrphs : List Mrph) : List Mrph := argTruncateGo mrphs false

/-- Does the adjective+です exception fire at the last position of the list? -/
def lastExc1 (l : List Mrph) : Bool :=
  match l.get? (l.length - 1) with
  | some m =>
    m.hinsi == "助動詞" && m.genkei == "です" && decide (0 < l.length - 1) &&
      (((l.get? (l.length - 2)).map Mrph.hinsi).getD "" == "形容詞")
  | none => false

/-- Does the 活用語+じゃ exception fire at the last position of the list? -/
def lastExc2 (l : List Mrph) : Bool :=
  match l.get? (l.length - 1) with
  | some m =>
    m.hinsi == "判定詞" && m.midasi == "じゃ" && decide (0 < l.length - 1) &&
      (((l.get? (l.length - 2)).map fun p => hasChunkExact p.fstring "活用語").getD false)
  | none => false

/-- Does the general conjugated/final-content cut fire at the last position? -/
def lastGeneral (l : List Mrph) : Bool :=
  match l.get? (l.length - 1) with
  | some m =>
    (hasChunkExact m.fstring "活用語" || hasChunkExact m.fstring "用言意味表記末尾")
      && !(m.genkei == "のだ") && !(m.genkei == "んだ")
  | none => false

theorem argTruncateGo_idem : ∀ (l : List Mrph) (s : Bool),
    argTruncateGo (argTruncateGo l s) s = argTruncateGo l s := by
  intro l
  induction l with
  | nil => intro s; rfl
  | cons m rest ih =>
    intro s
    simp only [argTruncateGo]
    by_cases hc : (!isContentWord m && s) = true
    · rw [if_pos hc]
      rfl
    · rw [if_neg hc]
      conv_lhs => rw [argTruncateGo]
      rw [if_neg hc, ih (s || isContentWord m)]

/-- A list whose last morpheme triggers the general cut and neither exception is a
fixed point of the predicate truncation. -/
theorem predTruncate_fixed (y : List Mrph)
    (h1 : lastExc1 y = false) (h2 : lastExc2 y = false) (h3 : lastGeneral y = true) :
    predTruncate y = y := by
  cases hlen : y.length with
  | zero =>
    rw [List.length_eq_zero] at hlen
    subst hlen
    simp [lastGeneral] at h3
  | succ n =>
    have hn1 : y.length - 1 = n := by omega
    have hn2 : y.length - 2 = n - 1 := by omega
    have hget : y.get? n = some (y.get ⟨n, by omega⟩) := List.get?_eq_get (by omega)
    simp only [lastExc1, hn1, hn2, hget] at h1
    simp only [lastExc2, hn1, hn2, hget] at h2
    simp only [lastGeneral, hn1, hget] at h3
    simp only [predTruncate, hlen, predTruncateGo, hget, h1, h2, h3, Bool.false_eq_true,
      if_false, if_true]
    rw [← hlen, List.take_length]

def c8M0 : Mrph := ⟨"美しい", "美しい", "形容詞", ["活用語"]⟩

def c8M1 : Mrph := ⟨"です", "です", "助動詞", ["活用語"]⟩

def c8M2 : Mrph := ⟨"じゃ", "だ", "判定詞", []⟩

/-- Claim C8 counterexample: on 美しい(形容詞)+です(助動詞, conjugated)+じゃ(判定詞),
the predicate truncation rule first drops じゃ (活用語+じゃ exception), and applying it
again drops です (adjective+です exception), so it is not idempotent. -/
theorem c8_counterexample :
    predTruncate [c8M0, c8M1, c8M2] = [c8M0, c8M1] ∧
    predTruncate (predTruncate [c8M0, c8M1, c8M2]) = [c8M0] ∧
    predTruncate (predTruncate [c8M0, c8M1, c8M2]) ≠ predTruncate [c8M0, c8M1, c8M2] :=
  ⟨by decide, by decide, by decide⟩

/-- Claim C8 (amended): the argument truncation rule is idempotent for every morpheme
list; the predicate truncation rule is idempotent whenever the once-truncated list
does not end in a configuration matched by the adjective+です or 活用語+じゃ exception
and either no cut was made or its last morpheme is matched by the general
conjugated/final-content rule. -/
theorem c8_truncation_amended :
    (∀ l : List Mrph, argTruncate (argTruncate l) = argTruncate l) ∧
    (∀ l : List Mrph,
      lastExc1 (predTruncate l) = false →
      lastExc2 (predTruncate l) = false →
      (predTruncate l = l ∨ lastGeneral (predTruncate l) = true) →
      predTruncate (predTruncate l) = predTruncate l) := by
  constructor
  · intro l
    exact argTruncateGo_idem l false
  · intro l h1 h2 h3
    rcases h3 with hfix | hgen
    · rw [hfix]
      exact hfix
    · exact predTruncate_fixed (predTruncate l) h1 h2 hgen

/-- Claim C8 witness: the amended theorem applied to 走った (verb with conjugation) +
た; the cut is by the general rule and a second application changes nothing. -/
theorem c8_truncation_amended_witness :
    argTruncate (argTruncate [c8M0, c8M1]) = argTruncate [c8M0, c8M1] ∧
    predTruncate (predTruncate [c8M0]) = predTruncate [c8M0] :=
  ⟨c8_truncation_amended.1 [c8M0, c8M1],
   c8_truncation_amended.2 [c8M0] (by decide) (by decide) (Or.inr (by decide))⟩

/-! ## Serialization round trip (claim C1)

The export side is `EventGraph.to_dict` (eventgraph.py lines 159-169) together with
`Sentence.to_dict`, `Event.to_dict`, `Relation.to_dict`, `Predicate.to_dict`,
`Argument.to_dict` and `Features.to_dict`; the import side is `EventGraph.load`
(eventgraph.py lines 112-150) realised by the Json builders of document.py,
sentence.py, event.py and relation.py.  String-valued fields that the surface
realizer computes are carried as opaque values: `to_dict` records the value the
corresponding property returns, and the Json builders store it back verbatim. -/

structure ChildDump where
  surf : String
  normalized_surf : String
  mrphs : String
  normalized_mrphs : String
  reps : String
  normalized_reps : String
  adnominal_event_ids : List Nat
  sentential_complement_event_ids : List Nat
  modifier : Bool
  possessive : Bool
deriving DecidableEq, Repr

structure PredicateDump where
  surf : String
  normalized_surf : String
  mrphs : String
  normalized_mrphs : String
  reps : String
  normalized_reps : String
  standard_reps : String
  type_ : String
  adnominal_event_ids : List Nat
  sentential_complement_event_ids : List Nat
  children : List ChildDump
deriving DecidableEq, Repr

structure ArgumentDump where
  surf : String
  normalized_surf : String
  mrphs : String
  normalized_mrphs : String
  reps : String
  normalized_reps : String
  head_reps : String
  eid : Int
  flag : String
  sdist : Nat
  adnominal_event_ids : List Nat
  sentential_complement_event_ids : List Nat
  children : List ChildDump
deriving DecidableEq, Repr

structure FeaturesDump where
  modality : List String
  tense : String
  negation : Bool
  state : String
  complement : Bool
deriving DecidableEq, Repr

structure PasDump where
  predicate : PredicateDump
  argument : List (String × List ArgumentDump)
deriving DecidableEq, Repr

/-- A relation as wired inside a graph: modifier and head are serial event ids. -/
structure GRel where
  modifierEvid : Nat
  headEvid : Nat
  label : String
  surf : String
  headTid : Int
  reliable : Bool
deriving DecidableEq, Repr

structure GEvent where
  evid : Nat
  sid : String
  ssid : Nat
  outgoing : List GRel
  incoming : List GRel
  surf : String
  surf_with_mark : String
  mrphs : String
  mrphs_with_mark : String
  normalized_mrphs : String
  normalized_mrphs_with_mark : String
  normalized_mrphs_without_exophora : String
  normalized_mrphs_with_mark_without_exophora : String
  reps : String
  reps_with_mark : String
  normalized_reps : String
  normalized_reps_with_mark : String
  content_rep_list : List String
  pas : PasDump
  features : FeaturesDump
deriving DecidableEq, Repr

structure GSentence where
  sid : String
  ssid : Nat
  mrphs : String
  reps : String
deriving DecidableEq, Repr

structure EventGraphM where
  sentences : List GSentence
  events : List GEvent
deriving DecidableEq, Repr

structure RelDump where
  event_id : Nat
  label : String
  surf : String
  reliable : Bool
  head_tid : Int
deriving DecidableEq, Repr

structure SentenceDump where
  sid : String
  ssid : Nat
  surf : String
  mrphs : String
  reps : String
deriving DecidableEq, Repr

structure EventDump where
  event_id : Nat
  sid : String
  ssid : Nat
  rel : List RelDump
  surf : String
  surf_with_mark : String
  mrphs : String
  mrphs_with_mark : String
  normalized_mrphs : String
  normalized_mrphs_with_mark : String
  normalized_mrphs_without_exophora : String
  normalized_mrphs_with_mark_without_exophora : String
  reps : String
  reps_with_mark : String
  normalized_reps : String
  normalized_reps_with_mark : String
  content_rep_list : List String
  pas : PasDump
  features : FeaturesDump
deriving DecidableEq, Repr

structure GraphDump where
  sentences : List SentenceDump
  events : List EventDump
deriving DecidableEq, Repr

/-- Python `str.replace(' ', '')`. -/
def removeSpaces (s : String) : String := ⟨s.data.filter fun c => c ≠ ' '⟩

/-- `Argument.to_dict` (argument.py lines 234-250) unconditionally emits these keys,
so the dict it returns is always truthy. -/
def argumentDumpKeys (_d : ArgumentDump) : List String :=
  ["surf", "normalized_surf", "mrphs", "normalized_mrphs", "reps", "normalized_reps",
   "head_reps", "eid", "flag", "sdist", "adnominal_event_ids",
   "sentential_complement_event_ids", "children"]

/-- The argument section of `Event.to_dict` (event.py lines 584-588): keep the
arguments whose `to_dict()` is truthy and the cases with at least one such argument. -/
def pasArgumentSection (m : List (String × List ArgumentDump)) :
    List (String × List ArgumentDump) :=
  (m.filter fun cl => cl.2.any fun d => !(argumentDumpKeys d).isEmpty).map
    fun cl => (cl.1, cl.2.filter fun d => !(argumentDumpKeys d).isEmpty)

/-- `Relation.to_dict` (relation.py lines 44-52). -/
def relToDict (r : GRel) : RelDump := ⟨r.headEvid, r.label, r.surf, r.reliable, r.headTid⟩

/-- `Event.to_dict` (event.py lines 562-591). -/
def eventToDict (e : GEvent) : EventDump :=
  ⟨e.evid, e.sid, e.ssid, e.outgoing.map relToDict, e.surf, e.surf_with_mark, e.mrphs,
   e.mrphs_with_mark, e.normalized_mrphs, e.normalized_mrphs_with_mark,
   e.normalized_mrphs_without_exophora, e.normalized_mrphs_with_mark_without_exophora,
   e.reps, e.reps_with_mark, e.normalized_reps, e.normalized_reps_with_mark,
   e.content_rep_list, ⟨e.pas.predicate, pasArgumentSection e.pas.argument⟩, e.features⟩

/-- `Sentence.to_dict` (sentence.py lines 60-68): `surf` is `mrphs` without spaces. -/
def sentenceToDict (s : GSentence) : SentenceDump :=
  ⟨s.sid, s.ssid, removeSpaces s.mrphs, s.mrphs, s.reps⟩

/-- `EventGraph.to_dict` (eventgraph.py lines 159-169). -/
def graphToDict (g : EventGraphM) : GraphDump :=
  ⟨g.sentences.map sentenceToDict, g.events.map eventToDict⟩

/-- `JsonSentenceBuilder.__call__` (sentence.py lines 108-118): `sid`, `ssid`,
`mrphs` and `reps` are taken from the dump (`surf` is recomputed on demand). -/
def loadSentence (d : SentenceDump) : GSentence := ⟨d.sid, d.ssid, d.mrphs, d.reps⟩

/-- `JsonEventBuilder.__call__` (event.py lines 617-645): the event id is the builder
counter, `sid`/`ssid` come from the enclosing sentence, every serialized field is
stored back verbatim, and the relation lists start empty. -/
def loadEvent (evid : Nat) (sent : GSentence) (d : EventDump) : GEvent :=
  ⟨evid, sent.sid, sent.ssid, [], [], d.surf, d.surf_with_mark, d.mrphs,
   d.mrphs_with_mark, d.normalized_mrphs, d.normalized_mrphs_with_mark,
   d.normalized_mrphs_without_exophora, d.normalized_mrphs_with_mark_without_exophora,
   d.reps, d.reps_with_mark, d.normalized_reps, d.normalized_reps_with_mark,
   d.content_rep_list, d.pas, d.features⟩

/-- `JsonDocumentBuilder.__call__` (document.py lines 48-57): for each event dump,
look its sentence up by `ssid` (an out-of-range index raises) and build the event;
the `evid` counter runs over the dumps in order. -/
def loadEventsGo (sentences : List GSentence) : List EventDump → Nat → Option (List GEvent)
  | [], _ => some []
  | d :: ds, evid =>
    match sentences.get? d.ssid with
    | none => none
    | some sent =>
      (loadEventsGo sentences ds (evid + 1)).map fun rest => loadEvent evid sent d :: rest

/-- `Relation.load`/`JsonRelationBuilder.__call__` (relation.py lines 94-104): the
modifier is the event id of the enclosing event dump, the head is the `event_id`
stored in the relation dump. -/
def relFromDump (modifierEvid : Nat) (rd : RelDump) : GRel :=
  ⟨modifierEvid, rd.event_id, rd.label, rd.surf, rd.head_tid, rd.reliable⟩

def appendOutgoing (evs : List GEvent) (i : Nat) (r : GRel) : Option (List GEvent) :=
  match evs.get? i with
  | none => none
  | some e => some (evs.set i { e with outgoing := e.outgoing ++ [r] })

def appendIncoming (evs : List GEvent) (i : Nat) (r : GRel) : Option (List GEvent) :=
  match evs.get? i with
  | none => none
  | some e => some (evs.set i { e with incoming := e.incoming ++ [r] })

/-- One iteration of the relation-loading loop (eventgraph.py lines 142-146): append
the relation to the modifier's outgoing list and the head's incoming list, indexing
`evg.events` by event id. -/
def addRelation (evs : List GEvent) (p : Nat × RelDump) : Option (List GEvent) :=
  (appendOutgoing evs p.1 (relFromDump p.1 p.2)).bind fun evs1 =>
    appendIncoming evs1 (relFromDump p.1 p.2).headEvid (relFromDump p.1 p.2)

def addRelations (evs : List GEvent) : List (Nat × RelDump) → Option (List GEvent)
  | [] => some evs
  | p :: ps => (addRelation evs p).bind fun evs1 => addRelations evs1 ps

/-- The nested loop order of eventgraph.py lines 142-146: events in dump order, each
event's `rel` entries in order, paired with the dump's `event_id`. -/
def relDumpPairs (ds : List EventDump) : List (Nat × RelDump) :=
  ds.flatMap fun d => d.rel.map fun rd => (d.event_id, rd)

/-- `EventGraph.load` (eventgraph.py lines 112-150): load sentences, load events
(JsonDocumentBuilder), then re-wire the relations. -/
def graphLoad (d : GraphDump) : Option EventGraphM :=
  (loadEventsGo (d.sentences.map loadSentence) d.events 0).bind fun evs =>
    (addRelations evs (relDumpPairs d.events)).map fun evs2 =>
      ⟨d.sentences.map loadSentence, evs2⟩

/-- An event with its relation lists cleared, as `JsonEventBuilder` first creates it. -/
def stripRels (e : GEvent) : GEvent := { e with outgoing := [], incoming := [] }

/-- The wiring facts that hold for every `EventGraph` produced by `build`:
serial event ids equal list positions (EventBuilder counter), serial sentence ids
equal list positions (SentenceBuilder counter), every event's `sid` is its
sentence's `sid`, every outgoing relation is owned by its modifier and points to an
existing event, every argument case of a PAS holds at least one argument
(ArgumentsBuilder only creates a case when appending to it), and incoming lists
contain exactly the relations aimed at the event, in global creation order. -/
def builtInvariant (g : EventGraphM) : Prop :=
  (∀ i : Fin g.events.length, (g.events.get i).evid = i.1) ∧
  (∀ j : Fin g.sentences.length, (g.sentences.get j).ssid = j.1) ∧
  (∀ e ∈ g.events, (g.sentences.get? e.ssid).map GSentence.sid = some e.sid) ∧
  (∀ e ∈ g.events, ∀ r ∈ e.outgoing, r.modifierEvid = e.evid ∧ r.headEvid < g.events.length) ∧
  (∀ e ∈ g.events, ∀ cl ∈ e.pas.argument, cl.2 ≠ []) ∧
  (∀ i : Fin g.events.length,
    (g.events.get i).incoming =
      (g.events.flatMap GEvent.outgoing).filter fun r => r.headEvid == i.1)

theorem pasArgumentSection_eq : ∀ (m : List (String × List ArgumentDump)),
    (∀ cl ∈ m, cl.2 ≠ []) → pasArgumentSection m = m := by
  intro m
  induction m with
  | nil => intro _; rfl
  | cons cl rest ih =>
    intro h
    have hcl : cl.2 ≠ [] := h cl (by simp)
    have hany : (cl.2.any fun d => !(argumentDumpKeys d).isEmpty) = true := by
      cases hc : cl.2 with
      | nil => exact absurd hc hcl
      | cons d ds => rfl
    have hrest := ih fun cl2 hm => h cl2 (by simp [hm])
    unfold pasArgumentSection at hrest ⊢
    rw [List.filter_cons, hany]
    simp only [if_true, List.map_cons, hrest]
    have hfil : (cl.2.filter fun d => !(argumentDumpKeys d).isEmpty) = cl.2 :=
      List.filter_eq_self.mpr fun d _ => rfl
    rw [hfil]

theorem loadEvent_toDict (e : GEvent) (sent : GSentence)
    (h1 : sent.sid = e.sid) (h2 : sent.ssid = e.ssid)
    (h3 : ∀ cl ∈ e.pas.argument, cl.2 ≠ []) :
    loadEvent e.evid sent (eventToDict e) = stripRels e := by
  unfold loadEvent eventToDict stripRels
  simp only [h1, h2, pasArgumentSection_eq e.pas.argument h3]

theorem loadEventsGo_map (sentences : List GSentence)
    (hssid : ∀ j : Fin sentences.length, (sentences.get j).ssid = j.1) :
    ∀ (es : List GEvent) (k : Nat),
      (∀ i : Fin es.length, (es.get i).evid = k + i.1) →
      (∀ e ∈ es, (sentences.get? e.ssid).map GSentence.sid = some e.sid) →
      (∀ e ∈ es, ∀ cl ∈ e.pas.argument, cl.2 ≠ []) →
      loadEventsGo sentences (es.map eventToDict) k = some (es.map stripRels) := by
  intro es
  induction es with
  | nil => intro k _ _ _; rfl
  | cons e rest ih =>
    intro k hevid hsid hargs
    have hs := hsid e (by simp)
    rw [Option.map_eq_some'] at hs
    obtain ⟨sent, hget, hsid2⟩ := hs
    have hget' := hget
    rw [List.get?_eq_some] at hget'
    obtain ⟨hlt, hgeteq⟩ := hget'
    have hsentssid : sent.ssid = e.ssid := by
      have := hssid ⟨e.ssid, hlt⟩
      rw [hgeteq] at this
      exact this
    have hk : k = e.evid := by
      have := hevid ⟨0, by simp⟩
      simp at this
      omega
    have hrest := ih (k + 1)
      (fun i => by
        have := hevid ⟨i.1 + 1, Nat.succ_lt_succ i.isLt⟩
        simp only [List.get_cons_succ] at this
        rw [this]
        omega)
      (fun e2 hm => hsid e2 (by simp [hm]))
      (fun e2 hm => hargs e2 (by simp [hm]))
    simp only [List.map_cons, loadEventsGo, eventToDict, hget, hrest, Option.map_some']
    rw [hk]
    have := loadEvent_toDict e sent hsid2 hsentssid (hargs e (by simp))
    unfold eventToDict at this
    rw [this]

theorem appendOutgoing_spec (evs : List GEvent) (i : Nat) (r : GRel) (hi : i < evs.length) :
    ∃ evs1, appendOutgoing evs i r = some evs1 ∧ evs1.length = evs.length ∧
      ∀ j (hj : j < evs.length) (hj1 : j < evs1.length),
        evs1[j] = if i = j then { evs[j] with outgoing := evs[j].outgoing ++ [r] }
          else evs[j] := by
  refine ⟨evs.set i { evs[i] with outgoing := evs[i].outgoing ++ [r] }, ?_,
    List.length_set evs i _, ?_⟩
  · unfold appendOutgoing
    rw [List.get?_eq_get hi]
    simp [List.get_eq_getElem]
  · intro j hj hj1
    rw [List.getElem_set hj1]
    by_cases hij : i = j
    · subst hij
      simp
    · simp [hij]

theorem appendIncoming_spec (evs : List GEvent) (i : Nat) (r : GRel) (hi : i < evs.length) :
    ∃ evs1, appendIncoming evs i r = some evs1 ∧ evs1.length = evs.length ∧
      ∀ j (hj : j < evs.length) (hj1 : j < evs1.length),
        evs1[j] = if i = j then { evs[j] with incoming := evs[j].incoming ++ [r] }
          else evs[j] := by
  refine ⟨evs.set i { evs[i] with incoming := evs[i].incoming ++ [r] }, ?_,
    List.length_set evs i _, ?_⟩
  · unfold appendIncoming
    rw [List.get?_eq_get hi]
    simp [List.get_eq_getElem]
  · intro j hj hj1
    rw [List.getElem_set hj1]
    by_cases hij : i = j
    · subst hij
      simp
    · simp [hij]

theorem addRelation_spec (evs : List GEvent) (p : Nat × RelDump)
    (h1 : p.1 < evs.length) (h2 : (relFromDump p.1 p.2).headEvid < evs.length) :
    ∃ evs1, addRelation evs p = some evs1 ∧ evs1.length = evs.length ∧
      ∀ j (hj : j < evs.length) (hj1 : j < evs1.length),
        evs1[j] = { evs[j] with
          outgoing := evs[j].outgoing ++ (if p.1 = j then [relFromDump p.1 p.2] else []),
          incoming := evs[j].incoming ++
            (if (relFromDump p.1 p.2).headEvid = j then [relFromDump p.1 p.2] else []) } := by
  obtain ⟨evsA, hA, hlenA, hgetA⟩ := appendOutgoing_spec evs p.1 (relFromDump p.1 p.2) h1
  obtain ⟨evsB, hB, hlenB, hgetB⟩ :=
    appendIncoming_spec evsA (relFromDump p.1 p.2).headEvid (relFromDump p.1 p.2)
      (by rw [hlenA]; exact h2)
  refine ⟨evsB, ?_, by rw [hlenB, hlenA], ?_⟩
  · unfold addRelation
    rw [hA, Option.some_bind, hB]
  · intro j hj hj1
    have hjA : j < evsA.length := by rw [hlenA]; exact hj
    rw [hgetB j hjA hj1, hgetA j hj hjA]
    set r := relFromDump p.1 p.2 with hrdef
    by_cases hh : r.headEvid = j <;> by_cases hp : p.1 = j <;> simp [hh, hp]

theorem filterMapConsHead {α β : Type} (f : α → β) (g : α → Bool) (p : α) (ps : List α) :
    ((p :: ps).filter g).map f
      = (if g p = true then [f p] else []) ++ (ps.filter g).map f := by
  by_cases h : g p = true <;> simp [List.filter_cons, h]

theorem mapConsFilter {α β : Type} (g : α → β) (q : β → Bool) (p : α) (ps : List α) :
    ((p :: ps).map g).filter q
      = (if q (g p) = true then [g p] else []) ++ (ps.map g).filter q := by
  by_cases h : q (g p) = true <;> simp [List.filter_cons, h]

theorem addRelations_spec : ∀ (ps : List (Nat × RelDump)) (evs : List GEvent),
    (∀ p ∈ ps, p.1 < evs.length ∧ (relFromDump p.1 p.2).headEvid < evs.length) →
    ∃ evs1, addRelations evs ps = some evs1 ∧ evs1.length = evs.length ∧
      ∀ j (hj : j < evs.length) (hj1 : j < evs1.length),
        evs1[j] = { evs[j] with
          outgoing := evs[j].outgoing ++
            ((ps.filter fun q => q.1 == j).map fun q => relFromDump q.1 q.2),
          incoming := evs[j].incoming ++
            ((ps.map fun q => relFromDump q.1 q.2).filter fun r => r.headEvid == j) } := by
  intro ps
  induction ps with
  | nil =>
    intro evs _
    exact ⟨evs, rfl, rfl, fun j hj hj1 => by simp⟩
  | cons p ps ih =>
    intro evs hb
    obtain ⟨h1, h2⟩ := hb p (by simp)
    obtain ⟨evsA, hA, hlenA, hgetA⟩ := addRelation_spec evs p h1 h2
    obtain ⟨evsB, hB, hlenB, hgetB⟩ := ih evsA (fun q hm => by
      rw [hlenA]; exact hb q (by simp [hm]))
    refine ⟨evsB, ?_, by rw [hlenB, hlenA], ?_⟩
    · unfold addRelations
      rw [hA, Option.some_bind, hB]
    · intro j hj hj1
      have hjA : j < evsA.length := by rw [hlenA]; exact hj
      rw [hgetB j hjA hj1, hgetA j hj hjA]
      rw [filterMapConsHead (fun q : Nat × RelDump => relFromDump q.1 q.2)
        (fun q : Nat × RelDump => q.1 == j) p ps]
      rw [mapConsFilter (fun q : Nat × RelDump => relFromDump q.1 q.2)
        (fun r : GRel => r.headEvid == j) p ps]
      simp [List.append_assoc, beq_iff_eq]

theorem relDumpPairs_toDict (es : List GEvent) :
    relDumpPairs (es.map eventToDict)
      = es.flatMap fun e => e.outgoing.map fun r => (e.evid, relToDict r) := by
  unfold relDumpPairs
  rw [List.flatMap_map]
  refine List.flatMap_congr fun e _ => ?_
  simp only [eventToDict, List.map_map]
  rfl

theorem relPairs_map (es : List GEvent)
    (hmod : ∀ e ∈ es, ∀ r ∈ e.outgoing, r.modifierEvid = e.evid) :
    ((es.flatMap fun e => e.outgoing.map fun r => (e.evid, relToDict r)).map
        fun q => relFromDump q.1 q.2)
      = es.flatMap GEvent.outgoing := by
  rw [List.map_flatMap]
  refine List.flatMap_congr fun e he => ?_
  rw [List.map_map]
  have hpt : ∀ r ∈ e.outgoing,
      ((fun q : Nat × RelDump => relFromDump q.1 q.2) ∘
        fun r => (e.evid, relToDict r)) r = id r := by
    intro r hr
    have hm := hmod e he r hr
    simp only [Function.comp_apply, id_eq]
    unfold relFromDump relToDict
    cases r
    simp only at hm ⊢
    simp [hm]
  rw [List.map_congr_left hpt, List.map_id]

theorem outFilter_nil : ∀ (es : List GEvent) (k j : Nat),
    (∀ i : Fin es.length, (es.get i).evid = k + i.1) →
    (∀ e ∈ es, ∀ r ∈ e.outgoing, r.modifierEvid = e.evid) → j < k →
    (es.flatMap GEvent.outgoing).filter (fun r => r.modifierEvid == j) = [] := by
  intro es
  induction es with
  | nil => intro k j _ _ _; rfl
  | cons e rest ih =>
    intro k j hevid hmod hjk
    have he : e.evid = k := by
      have := hevid ⟨0, by simp⟩
      simpa using this
    rw [List.flatMap_cons, List.filter_append]
    have hhead : e.outgoing.filter (fun r => r.modifierEvid == j) = [] := by
      rw [List.filter_eq_nil_iff]
      intro r hr
      have hm := hmod e (by simp) r hr
      simp [hm, he]
      omega
    have htail := ih (k + 1) j
      (fun i => by
        have := hevid ⟨i.1 + 1, Nat.succ_lt_succ i.isLt⟩
        simp only [List.get_cons_succ] at this
        rw [this]; omega)
      (fun e2 hm2 => hmod e2 (by simp [hm2]))
      (by omega)
    rw [hhead, htail]
    rfl

theorem outFilter_block : ∀ (es : List GEvent) (k j : Nat),
    (∀ i : Fin es.length, (es.get i).evid = k + i.1) →
    (∀ e ∈ es, ∀ r ∈ e.outgoing, r.modifierEvid = e.evid) →
    ∀ (hj : j < es.length),
    (es.flatMap GEvent.outgoing).filter (fun r => r.modifierEvid == k + j)
      = (es.get ⟨j, hj⟩).outgoing := by
  intro es
  induction es with
  | nil => intro k j _ _ hj; exact absurd hj (by simp)
  | cons e rest ih =>
    intro k j hevid hmod hj
    have he : e.evid = k := by
      have := hevid ⟨0, by simp⟩
      simpa using this
    have hevid' : ∀ i : Fin rest.length, (rest.get i).evid = (k + 1) + i.1 := by
      intro i
      have := hevid ⟨i.1 + 1, Nat.succ_lt_succ i.isLt⟩
      simp only [List.get_cons_succ] at this
      rw [this]; omega
    have hmod' : ∀ e2 ∈ rest, ∀ r ∈ e2.outgoing, r.modifierEvid = e2.evid :=
      fun e2 hm2 => hmod e2 (by simp [hm2])
    rw [List.flatMap_cons, List.filter_append]
    cases j with
    | zero =>
      have hhead : e.outgoing.filter (fun r => r.modifierEvid == k + 0) = e.outgoing := by
        rw [List.filter_eq_self]
        intro r hr
        have hm := hmod e (by simp) r hr
        simp [hm, he]
      have htail := outFilter_nil rest (k + 1) (k + 0) hevid' hmod' (by omega)
      rw [hhead, htail, List.append_nil]
      rfl
    | succ s =>
      have hhead : e.outgoing.filter (fun r => r.modifierEvid == k + (s + 1)) = [] := by
        rw [List.filter_eq_nil_iff]
        intro r hr
        have hm := hmod e (by simp) r hr
        simp [hm, he]
      have hs : s < rest.length := by
        have := hj
        simp at this
        omega
      have htail := ih (k + 1) s hevid' hmod' hs
      have hk : (k + 1) + s = k + (s + 1) := by omega
      rw [hk] at htail
      rw [hhead, htail, List.nil_append, List.get_cons_succ]

/-- Claim C1: for every EventGraph G that satisfies the wiring invariants guaranteed
by build (serial event/sentence ids equal list positions, each event's sid is its
sentence's, outgoing relations are owned by their modifier and point to existing
events, argument cases are non-empty, and incoming lists are the canonical filter of
all outgoing relations), loading the dictionary produced by to_dict returns a graph
equal to G field-for-field: every event with all its scalar fields, pas, features and
every relation entry, element-wise and in the same order. -/
theorem c1_round_trip (g : EventGraphM) (hinv : builtInvariant g) :
    graphLoad (graphToDict g) = some g := by
  obtain ⟨hevid, hssid, hsid, hout, hargs, hinc⟩ := hinv
  have hmod : ∀ e ∈ g.events, ∀ r ∈ e.outgoing, r.modifierEvid = e.evid :=
    fun e he r hr => (hout e he r hr).1
  have hsent : (g.sentences.map sentenceToDict).map loadSentence = g.sentences := by
    rw [List.map_map]
    have hid : ∀ s ∈ g.sentences, (loadSentence ∘ sentenceToDict) s = id s :=
      fun s _ => rfl
    rw [List.map_congr_left hid, List.map_id]
  have hload := loadEventsGo_map g.sentences hssid g.events 0
    (fun i => by rw [hevid i]; omega) hsid hargs
  have hlen0 : (g.events.map stripRels).length = g.events.length := by simp
  have hb : ∀ p ∈ (g.events.flatMap fun e => e.outgoing.map fun r => (e.evid, relToDict r)),
      p.1 < (g.events.map stripRels).length ∧
      (relFromDump p.1 p.2).headEvid < (g.events.map stripRels).length := by
    intro p hp
    rw [List.mem_flatMap] at hp
    obtain ⟨e, he, hpe⟩ := hp
    rw [List.mem_map] at hpe
    obtain ⟨r, hr, hpr⟩ := hpe
    obtain ⟨i, hi⟩ := List.mem_iff_get.mp he
    have hev : e.evid = i.1 := by rw [← hi]; exact hevid i
    have hfd : relFromDump e.evid (relToDict r) = r := by
      rw [← hmod e he r hr]
      rfl
    subst hpr
    refine ⟨?_, ?_⟩
    · rw [hlen0]
      show e.evid < g.events.length
      rw [hev]
      exact i.isLt
    · rw [hlen0]
      show (relFromDump e.evid (relToDict r)).headEvid < g.events.length
      rw [hfd]
      exact (hout e he r hr).2
  obtain ⟨evs1, hAdd, hlen1, hget1⟩ := addRelations_spec
    (g.events.flatMap fun e => e.outgoing.map fun r => (e.evid, relToDict r))
    (g.events.map stripRels) hb
  have hXmap : ((g.events.flatMap fun e => e.outgoing.map fun r => (e.evid, relToDict r)).map
      fun q => relFromDump q.1 q.2) = g.events.flatMap GEvent.outgoing :=
    relPairs_map g.events hmod
  have hevs : evs1 = g.events := by
    refine List.ext_getElem (by rw [hlen1, hlen0]) ?_
    intro n h1 h2
    have hn : n < (g.events.map stripRels).length := by rw [hlen0]; exact h2
    rw [hget1 n hn h1]
    have hcomm : List.filter (fun r : GRel => r.modifierEvid == n)
          (List.map (fun q : Nat × RelDump => relFromDump q.1 q.2)
            (g.events.flatMap fun e => e.outgoing.map fun r => (e.evid, relToDict r)))
        = List.map (fun q : Nat × RelDump => relFromDump q.1 q.2)
          (List.filter (fun q : Nat × RelDump => q.1 == n)
            (g.events.flatMap fun e => e.outgoing.map fun r => (e.evid, relToDict r))) := by
      rw [List.filter_map]
      rfl
    have hblock := outFilter_block g.events 0 n
      (fun i => by rw [hevid i]; omega) hmod h2
    simp only [Nat.zero_add] at hblock
    have hX : ((List.filter (fun q : Nat × RelDump => q.1 == n)
          (g.events.flatMap fun e => e.outgoing.map fun r => (e.evid, relToDict r))).map
            fun q => relFromDump q.1 q.2)
        = (g.events.get ⟨n, h2⟩).outgoing := by
      rw [← hcomm, hXmap, hblock]
    have hY : ((g.events.flatMap fun e =>
            e.outgoing.map fun r => (e.evid, relToDict r)).map
          fun q => relFromDump q.1 q.2).filter (fun r => r.headEvid == n)
        = (g.events.get ⟨n, h2⟩).incoming := by
      rw [hXmap]
      exact (hinc ⟨n, h2⟩).symm
    rw [List.getElem_map, hX, hY]
    simp only [stripRels, List.nil_append, List.get_eq_getElem]
  unfold graphLoad graphToDict
  show (loadEventsGo ((g.sentences.map sentenceToDict).map loadSentence)
      (g.events.map eventToDict) 0).bind (fun evs =>
        (addRelations evs (relDumpPairs (g.events.map eventToDict))).map fun evs2 =>
          ⟨(g.sentences.map sentenceToDict).map loadSentence, evs2⟩) = some g
  rw [hsent, hload, Option.some_bind, relDumpPairs_toDict, hAdd, Option.map_some', hevs]

def c1Feat : FeaturesDump := ⟨["〜たい"], "非過去", false, "動態述語", false⟩

def c1Pred : PredicateDump := ⟨"見た", "見た", "見た", "見た", "見る/みる", "見る/みる",
  "見る/みる", "動", [], [], []⟩

def c1Arg : ArgumentDump := ⟨"彼が", "彼が", "彼 が", "彼 が", "彼/かれ", "彼/かれ",
  "彼/かれ", 3, "C", 0, [], [], []⟩

def c1Pas : PasDump := ⟨c1Pred, [("ガ", [c1Arg])]⟩

def c1Rel : GRel := ⟨1, 0, "連体修飾", "", 2, true⟩

def c1Sent : GSentence := ⟨"s0", 0, "彼 が 見た 本 を 読んだ", "彼/かれ が 見る/みる"⟩

def c1Ev0 : GEvent := ⟨0, "s0", 0, [], [c1Rel], "彼が見た", "彼が見た", "彼 が 見た",
  "彼 が 見た", "彼 が 見た", "彼 が 見た", "彼 が 見た", "彼 が 見た",
  "彼/かれ が 見る/みる", "彼/かれ が 見る/みる", "彼/かれ が 見る/みる",
  "彼/かれ が 見る/みる", ["見る/みる"], c1Pas, c1Feat⟩

def c1Ev1 : GEvent := ⟨1, "s0", 0, [c1Rel], [], "本を読んだ", "本を読んだ", "本 を 読んだ",
  "本 を 読んだ", "本 を 読んだ", "本 を 読んだ", "本 を 読んだ", "本 を 読んだ",
  "本/ほん を 読む/よむ", "本/ほん を 読む/よむ", "本/ほん を 読む/よむ",
  "本/ほん を 読む/よむ", ["読む/よむ"], c1Pas, c1Feat⟩

def c1G : EventGraphM := ⟨[c1Sent], [c1Ev0, c1Ev1]⟩

/-- Witness for claim C1: a two-event, one-sentence graph with one adnominal
relation satisfies the built-graph invariants, and serializing then loading it
returns it unchanged. -/
theorem c1_round_trip_witness :
    builtInvariant c1G ∧ graphLoad (graphToDict c1G) = some c1G :=
  ⟨by unfold builtInvariant; decide, c1_round_trip c1G (by unfold builtInvariant; decide)⟩

/-- A head token as seen by `Event._to_tokens` (token.py `Token`): its omitted case
(empty when not omitted), its exophora string, the tag id of its phrase (`none` when
the token has no tag, as for exophora), and the two clause-feature properties
`is_event_head` / `is_event_end`. -/
structure TTok where
  omittedCase : String
  exophora : String
  tagId : Option Nat
  isEventHead : Bool
  isEventEnd : Bool
deriving DecidableEq, Repr

/-- The slice of `Event` that `Event._to_tokens` (event.py lines 369-387) reads:
the head and end tag ids, the predicate head token, the argument head tokens in
`arguments.values()` order, and the pas argument section of `to_dict`. -/
structure TEvent where
  headTid : Nat
  endTid : Nat
  predHead : TTok
  argHeads : List TTok
  pasArgument : List (String × List ArgumentDump)
deriving Repr

/-- One argument branch of `Event._to_tokens` (event.py lines 372-387): omitted
arguments are kept unless exophora exclusion drops an exophora; a non-omitted
argument reads `head_token.tag.tag_id` (`none` aborts, as the attribute access
raises), is dropped when it precedes the event head and is an event head/end, is
dropped when it follows the event end, and is kept otherwise. -/
def keepArg (ev : TEvent) (excludeExophora : Bool) (t : TTok) : Option Bool :=
  if t.omittedCase ≠ "" then
    if excludeExophora && t.exophora ≠ "" then some false else some true
  else
    match t.tagId with
    | none => none
    | some tid =>
      if tid < ev.headTid && (t.isEventHead || t.isEventEnd) then some false
      else if ev.endTid < tid then some false
      else some true

/-- The argument loop of `Event._to_tokens`: append each kept argument head token. -/
def filterHeads (ev : TEvent) (ex : Bool) : List TTok → Option (List TTok)
  | [] => some []
  | t :: ts =>
    (keepArg ev ex t).bind fun b =>
      (filterHeads ev ex ts).map fun rest => if b then t :: rest else rest

/-- `Event._to_tokens` head-token collection (event.py lines 369-387, without
`include_modifiers`): the predicate head token followed by the kept argument heads. -/
def collectHeadTokens (ev : TEvent) (ex : Bool) : Option (List TTok) :=
  (filterHeads ev ex ev.argHeads).map fun kept => ev.predHead :: kept

/-- Follows the claim C10 words: an omitted argument is kept unless exophora
exclusion is requested and it is an exophora; a non-omitted argument is excluded
exactly when it appears after the event end or precedes the event head while being
an event head or event end. -/
def c10SpecKept (ev : TEvent) (ex : Bool) (t : TTok) : Bool :=
  if t.omittedCase ≠ "" then !(ex && t.exophora ≠ "")
  else
    match t.tagId with
    | none => false
    | some tid =>
      !((decide (tid < ev.headTid) && (t.isEventHead || t.isEventEnd))
        || decide (ev.endTid < tid))

theorem filterHeads_spec (ev : TEvent) (ex : Bool) : ∀ (ts : List TTok),
    (∀ t ∈ ts, t.omittedCase = "" → t.tagId ≠ none) →
    filterHeads ev ex ts = some (ts.filter (c10SpecKept ev ex)) := by
  intro ts
  induction ts with
  | nil => intro _; rfl
  | cons t rest ih =>
    intro h
    have hrest := ih fun t2 hm => h t2 (by simp [hm])
    unfold filterHeads
    rw [hrest]
    by_cases hom : t.omittedCase ≠ ""
    · by_cases hex : ex && t.exophora ≠ ""
      · simp only [Bool.and_eq_true, decide_eq_true_eq] at hex
        simp [keepArg, c10SpecKept, hom, hex.1, hex.2, List.filter_cons]
      · have hex' : ex = false ∨ t.exophora = "" := by
          rcases Bool.eq_false_or_eq_true ex with hb | hb
          · right
            by_contra hne
            exact hex (by simp [hb, hne])
          · exact Or.inl hb
        rcases hex' with hb | hb <;>
          simp [keepArg, c10SpecKept, hom, hb, List.filter_cons]
    · cases htag : t.tagId with
      | none => exact absurd htag (h t (by simp) (by simpa using hom))
      | some tid =>
        by_cases h1 : tid < ev.headTid ∧ (t.isEventHead || t.isEventEnd) = true
        · simp [keepArg, c10SpecKept, hom, htag, List.filter_cons, h1.1, h1.2]
        · by_cases h2 : ev.endTid < tid
          · simp [keepArg, c10SpecKept, hom, htag, List.filter_cons, h2]
          · simp only [not_and_or] at h1
            rcases h1 with h1 | h1
            · simp [keepArg, c10SpecKept, hom, htag, List.filter_cons, h1, h2]
            · simp [keepArg, c10SpecKept, hom, htag, List.filter_cons, h1, h2]

/-- Claim C10: for every event whose non-omitted argument head tokens all carry a
tag, the token list `Event._to_tokens` uses to realize the surface strings is the
predicate head plus exactly those argument heads the claim keeps: omitted arguments
always, except exophora under exophora exclusion; non-omitted ones unless they
follow the event end or precede the event head while being an event head/end.
The pas section of `to_dict` keeps every argument case untouched by this selection. -/
theorem c10_to_tokens (ev : TEvent) (ex : Bool)
    (htags : ∀ t ∈ ev.argHeads, t.omittedCase = "" → t.tagId ≠ none)
    (hpas : ∀ cl ∈ ev.pasArgument, cl.2 ≠ []) :
    collectHeadTokens ev ex
        = some (ev.predHead :: ev.argHeads.filter (c10SpecKept ev ex)) ∧
      pasArgumentSection ev.pasArgument = ev.pasArgument := by
  constructor
  · unfold collectHeadTokens
    rw [filterHeads_spec ev ex ev.argHeads htags]
    rfl
  · exact pasArgumentSection_eq ev.pasArgument hpas

def c10Arg : ArgumentDump := ⟨"本を", "本を", "本 を", "本 を", "本/ほん を", "本/ほん を",
  "本/ほん", 5, "C", 0, [], [], []⟩

def c10Ev : TEvent :=
  ⟨3, 4, ⟨"", "", some 3, true, false⟩,
   [⟨"ガ", "", some 1, false, false⟩,
    ⟨"ガ２", "著者", none, false, false⟩,
    ⟨"", "", some 1, true, false⟩,
    ⟨"", "", some 5, false, false⟩,
    ⟨"", "", some 2, false, false⟩],
   [("ヲ", [c10Arg])]⟩

/-- Witness for claim C10: an event with an omitted argument, an exophora argument,
a pre-head event-head argument, a post-end argument and a plain argument satisfies
the hypotheses, and the theorem applies with exophora exclusion requested. -/
theorem c10_to_tokens_witness :
    (∀ t ∈ c10Ev.argHeads, t.omittedCase = "" → t.tagId ≠ none) ∧
    (∀ cl ∈ c10Ev.pasArgument, cl.2 ≠ []) ∧
    (collectHeadTokens c10Ev true
        = some (c10Ev.predHead :: c10Ev.argHeads.filter (c10SpecKept c10Ev true)) ∧
      pasArgumentSection c10Ev.pasArgument = c10Ev.pasArgument) :=
  ⟨by decide, by decide, c10_to_tokens c10Ev true (by decide) (by decide)⟩

/-- `pyknp` tag lookup within one sentence: the tag whose `tag_id` is `t`
(`Builder.stid_tag_map` restricted to the sentence). -/
def tagAt (ts : List KTag) (t : Nat) : Option KTag := ts.find? fun c => c.tagId == t

/-- `pyknp`'s `tag.children`: the tags of the sentence whose parent is `t`, in
sentence order. -/
def tagChildren (ts : List KTag) (t : Nat) : List KTag :=
  ts.filter fun c => c.parentId == (t : Int)

/-- The skip test of `BasePhraseBuilder.add_children` (base_phrase.py line 281):
a child carrying the clause-head or clause-end feature is not dispatched. -/
def isClauseMarked (c : KTag) : Bool :=
  hasFeatureKey c.features "節-主辞" || hasFeatureKey c.features "節-区切"

/-- The compound-phrase test of `add_compound_phrase_component` (base_phrase.py
line 269): the next tag is attached iff it is a compound functional expression
(複合辞) and not a complementizer (補文ト). -/
def isCompoundTag (c : KTag) : Bool :=
  hasFeatureKey c.features "複合辞" && !hasFeatureKey c.features "補文ト"

/-- Tag ids visited by `BasePhraseBuilder.add_children` (base_phrase.py lines
278-288) below tag `t`: children in sentence order, skipping sentinel tags and
clause-marked tags, each kept child followed by its own subtree. -/
def addChildrenWalk (ts : List KTag) (sents : List Nat) : Nat → Nat → List Nat
  | 0, _ => []
  | fuel + 1, t =>
    (tagChildren ts t).flatMap fun c =>
      if sents.contains c.tagId || isClauseMarked c then []
      else c.tagId :: addChildrenWalk ts sents fuel c.tagId

/-- Tag ids of the compound-parent chain built by `add_compound_phrase_component`
(base_phrase.py lines 267-276) above tag `t`: while the next tag is a compound
functional expression, it becomes a parent whose children are walked with the
previous phrase as the only sentinel. -/
def compoundWalk (ts : List KTag) : Nat → Nat → List Nat
  | 0, _ => []
  | fuel + 1, t =>
    match tagAt ts (t + 1) with
    | none => []
    | some nt =>
      if isCompoundTag nt then
        (t + 1) :: (addChildrenWalk ts [t] fuel (t + 1) ++ compoundWalk ts fuel (t + 1))
      else []

/-- Tag ids of the resolved subtree below `t`: the `add_children` walk with the
additional pruning of `BasePhraseBuilder._resolve_duplication` (base_phrase.py
lines 290-305), which pops any child whose (ssid, bid, tid) key is among the
argument-head keys, subtree included. Within one sentence the bid is a function
of the tid, so keys are modelled as (ssid, tid) pairs. -/
def resolvedWalk (ts : List KTag) (ssid : Nat) (keys : List (Nat × Nat))
    (sents : List Nat) : Nat → Nat → List Nat
  | 0, _ => []
  | fuel + 1, t =>
    (tagChildren ts t).flatMap fun c =>
      if sents.contains c.tagId || isClauseMarked c then []
      else if keys.contains (ssid, c.tagId) then []
      else c.tagId :: resolvedWalk ts ssid keys sents fuel c.tagId

/-- An argument as `BasePhraseBuilder.dispatch_head_base_phrase_to_argument`
(base_phrase.py lines 227-244) reads it: its case, its flag ('E' exophora,
'O' zero anaphora, otherwise a direct dependency), the sentence distance and
the target tag id. -/
structure PArg where
  argCase : String
  flag : String
  sdist : Nat
  tid : Nat
deriving DecidableEq, Repr

/-- The slice of an event that `BasePhraseBuilder.__call__` reads: its serial
sentence id, head and end tag ids, and its arguments in `arguments.values()`
order. -/
structure PEvent where
  ssid : Nat
  headTid : Nat
  endTid : Nat
  args : List PArg
deriving DecidableEq, Repr

/-- A document as a map from serial sentence id to the sentence's tags. -/
def lookupSent : List (Nat × List KTag) → Nat → List KTag
  | [], _ => []
  | (s, ts) :: rest, q => if s == q then ts else lookupSent rest q

def argSsid (ev : PEvent) (a : PArg) : Nat := ev.ssid - a.sdist

def argIsOmitted (a : PArg) : Bool := a.flag == "E" || a.flag == "O"

/-- The (ssid, tid) keys an argument dispatch contributes to the resolver's
`head_keys` (base_phrase.py lines 213-222, 292): the head phrase key, plus the
key of its compound parent when one was attached. -/
def argSentinelKeys (w : List (Nat × List KTag)) (ev : PEvent) (a : PArg) :
    List (Nat × Nat) :=
  let s := argSsid ev a
  if argIsOmitted a then [(s, a.tid)]
  else
    match tagAt (lookupSent w s) (a.tid + 1) with
    | some nt => if isCompoundTag nt then [(s, a.tid), (s, a.tid + 1)] else [(s, a.tid)]
    | none => [(s, a.tid)]

/-- The tags of the phrases an argument dispatch contributes to the predicate
walk's sentinel set (base_phrase.py lines 253-259, 279): an exophora phrase has
no tag, a zero-anaphora phrase has one only when the map lookup succeeds, and a
direct argument has its own tag plus its compound parent's, when present. -/
def argSentinelTags (w : List (Nat × List KTag)) (ev : PEvent) (a : PArg) :
    List (Nat × Nat) :=
  let s := argSsid ev a
  if a.flag == "E" then []
  else if a.flag == "O" then
    match tagAt (lookupSent w s) a.tid with
    | some _ => [(s, a.tid)]
    | none => []
  else
    match tagAt (lookupSent w s) a.tid, tagAt (lookupSent w s) (a.tid + 1) with
    | some _, some nt =>
      if isCompoundTag nt then [(s, a.tid), (s, a.tid + 1)] else [(s, a.tid)]
    | some _, none => [(s, a.tid)]
    | none, _ => []

/-- `head_keys` of `_resolve_duplication`: the keys of every argument head phrase
and attached compound parent. -/
def allHeadKeys (w : List (Nat × List KTag)) (ev : PEvent) : List (Nat × Nat) :=
  ev.args.flatMap (argSentinelKeys w ev)

/-- The sentinel tag ids of the event's home sentence, as seen by
`dispatch_head_base_phrase_to_predicate`. -/
def homeSentinelTids (w : List (Nat × List KTag)) (ev : PEvent) : List Nat :=
  ((ev.args.flatMap (argSentinelTags w ev)).filter fun k => k.1 == ev.ssid).map
    fun k => k.2

/-- The keys of one argument's span after `_resolve_duplication`: an omitted
argument is a single key; a direct argument is its head, its resolved subtree,
and, when a compound parent was attached, the parent (whose own children were
walked with the head as sentinel and pruned by the resolver, the aliased head
being popped) followed by the untouched deeper compound chain. -/
def argSpanResolvedKeys (w : List (Nat × List KTag)) (ev : PEvent)
    (keys : List (Nat × Nat)) (a : PArg) : List (Nat × Nat) :=
  let s := argSsid ev a
  let ts := lookupSent w s
  let fuel := ts.length
  if argIsOmitted a then [(s, a.tid)]
  else
    ((s, a.tid) :: (resolvedWalk ts s keys [] fuel a.tid).map fun x => (s, x))
      ++ match tagAt ts (a.tid + 1) with
        | some nt =>
          if isCompoundTag nt then
            ((s, a.tid + 1) ::
                (resolvedWalk ts s keys [a.tid] fuel (a.tid + 1)).map fun x => (s, x))
              ++ (compoundWalk ts fuel (a.tid + 1)).map fun x => (s, x)
          else []
        | none => []

/-- The keys of the predicate span built by
`dispatch_head_base_phrase_to_predicate` (base_phrase.py lines 246-265): the head
phrase and its walk under the argument sentinels; when the event end differs from
the head, also the end phrase, its walk with the head added to the sentinels, and
the compound chain above the end. -/
def predSpanKeys (w : List (Nat × List KTag)) (ev : PEvent) : List (Nat × Nat) :=
  let ts := lookupSent w ev.ssid
  let fuel := ts.length
  let sTids := homeSentinelTids w ev
  ((ev.ssid, ev.headTid) ::
      (addChildrenWalk ts sTids fuel ev.headTid).map fun x => (ev.ssid, x))
    ++ if ev.headTid ≠ ev.endTid then
        ((ev.ssid, ev.endTid) ::
            (addChildrenWalk ts (sTids ++ [ev.headTid]) fuel ev.endTid).map
              fun x => (ev.ssid, x))
          ++ (compoundWalk ts fuel ev.endTid).map fun x => (ev.ssid, x)
      else []

/-- The union the claim speaks of: predicate span keys followed by every
argument's span keys, after duplicate resolution. -/
def eventSpanKeys (w : List (Nat × List KTag)) (ev : PEvent) : List (Nat × Nat) :=
  predSpanKeys w ev ++ ev.args.flatMap (argSpanResolvedKeys w ev (allHeadKeys w ev))

/-- The same union restricted to non-omitted phrases: the spans of omitted
arguments (single virtual phrases) are left out. -/
def eventSpanKeysNonOmitted (w : List (Nat × List KTag)) (ev : PEvent) :
    List (Nat × Nat) :=
  predSpanKeys w ev ++
    (ev.args.filter fun a => !argIsOmitted a).flatMap
      (argSpanResolvedKeys w ev (allHeadKeys w ev))

def c7W : List (Nat × List KTag) :=
  [(0, [⟨0, 1, "D", []⟩, ⟨1, -1, "D", ["節-主辞", "節-区切"]⟩])]

def c7Ev : PEvent := ⟨0, 1, 1, [⟨"ガ", "O", 0, 0⟩, ⟨"ヲ", "O", 0, 0⟩]⟩

/-- Claim C7 counterexample: a predicate with two zero-anaphora arguments of
different cases resolving to the same phrase. Both omitted argument heads survive
(the resolver prunes only children, never heads), so the union of the spans holds
the key (0, 0) twice: phrase-key uniqueness fails when the case dimension is
ignored. -/
theorem c7_counterexample :
    eventSpanKeys c7W c7Ev = [(0, 1), (0, 0), (0, 0)] ∧
      ¬ (eventSpanKeys c7W c7Ev).Nodup := by
  constructor
  · decide
  · decide

/-- The parent tag id of tag `x`, when `x` exists and is not a root. -/
def parentOf (ts : List KTag) (x : Nat) : Option Nat :=
  match tagAt ts x with
  | none => none
  | some c => if c.parentId < 0 then none else some c.parentId.toNat

/-- The shape KNP guarantees for a sentence's tag list: tag ids equal list
positions and every dependency points at a strictly later tag (head-final), the
root being marked with parent -1. -/
def wfTags (ts : List KTag) : Prop :=
  (∀ i : Fin ts.length, (ts.get i).tagId = i.1) ∧
  (∀ c ∈ ts, c.parentId = -1 ∨ (c.tagId : Int) < c.parentId)

/-- A chain of parent steps from `x` up to `t` whose every strict stage below `t`
(including `x` itself) satisfies `P`. -/
inductive Reach (ts : List KTag) (P : Nat → Prop) : Nat → Nat → Prop where
  | refl (t : Nat) : Reach ts P t t
  | step {x p t : Nat} : P x → parentOf ts x = some p → Reach ts P p t → Reach ts P x t

theorem tagAt_mem {ts : List KTag} {t : Nat} {c : KTag} (h : tagAt ts t = some c) :
    c ∈ ts ∧ c.tagId = t := by
  unfold tagAt at h
  refine ⟨List.mem_of_find?_eq_some h, ?_⟩
  have := List.find?_some h
  simpa using this

theorem find?_positional : ∀ (ts : List KTag) (off : Nat),
    (∀ i : Fin ts.length, (ts.get i).tagId = off + i.1) →
    ∀ c ∈ ts, ts.find? (fun d => d.tagId == c.tagId) = some c := by
  intro ts
  induction ts with
  | nil => intro off _ c hc; exact absurd hc (by simp)
  | cons d rest ih =>
    intro off hpos c hc
    have hd : d.tagId = off := by
      have := hpos ⟨0, by simp⟩
      simpa using this
    rcases List.mem_cons.mp hc with rfl | hcr
    · simp [List.find?]
    · obtain ⟨j, hj⟩ := List.mem_iff_get.mp hcr
      have hcid : c.tagId = off + (j.1 + 1) := by
        have := hpos ⟨j.1 + 1, Nat.succ_lt_succ j.isLt⟩
        simp only [List.get_cons_succ] at this
        rw [hj] at this
        omega
      have hne : (d.tagId == c.tagId) = false := by
        rw [beq_eq_false_iff_ne]
        omega
      rw [List.find?_cons, hne]
      exact ih (off + 1)
        (fun i => by
          have := hpos ⟨i.1 + 1, Nat.succ_lt_succ i.isLt⟩
          simp only [List.get_cons_succ] at this
          rw [this]; omega)
        c hcr

theorem tagAt_of_mem {ts : List KTag} (hwf : wfTags ts) {c : KTag} (hc : c ∈ ts) :
    tagAt ts c.tagId = some c := by
  unfold tagAt
  exact find?_positional ts 0 (fun i => by rw [hwf.1 i]; omega) c hc

theorem parentOf_gt {ts : List KTag} (hwf : wfTags ts) {x p : Nat}
    (h : parentOf ts x = some p) : x < p := by
  unfold parentOf at h
  cases htag : tagAt ts x with
  | none => rw [htag] at h; exact absurd h (by simp)
  | some c =>
    rw [htag] at h
    dsimp only at h
    obtain ⟨hmem, hid⟩ := tagAt_mem htag
    by_cases hneg : c.parentId < 0
    · rw [if_pos hneg] at h; exact absurd h (by simp)
    · rw [if_neg hneg] at h
      have hp : p = c.parentId.toNat := by
        have := h; injection this; omega
      rcases hwf.2 c hmem with hroot | hgt
      · omega
      · omega

theorem child_parentOf {ts : List KTag} (hwf : wfTags ts) {c : KTag} {t : Nat}
    (hc : c ∈ tagChildren ts t) : parentOf ts c.tagId = some t ∧ c.tagId < t := by
  unfold tagChildren at hc
  rw [List.mem_filter] at hc
  obtain ⟨hmem, hbeq⟩ := hc
  have hpar : c.parentId = (t : Int) := by
    have := hbeq
    rwa [beq_iff_eq] at this
  have hpo : parentOf ts c.tagId = some t := by
    unfold parentOf
    rw [tagAt_of_mem hwf hmem]
    dsimp only
    rw [if_neg (by omega)]
    congr 1
    omega
  refine ⟨hpo, ?_⟩
  rcases hwf.2 c hmem with hroot | hgt
  · omega
  · omega

theorem reach_le {ts : List KTag} (hwf : wfTags ts) {P : Nat → Prop} {x t : Nat}
    (h : Reach ts P x t) : x ≤ t := by
  induction h with
  | refl t => exact le_refl t
  | step hx hpar hrest ih => exact le_of_lt (lt_of_lt_of_le (parentOf_gt hwf hpar) ih)

theorem reach_weaken {ts : List KTag} {P Q : Nat → Prop} {x t : Nat}
    (hpq : ∀ y, P y → Q y) (h : Reach ts P x t) : Reach ts Q x t := by
  induction h with
  | refl t => exact Reach.refl t
  | step hx hpar hrest ih => exact Reach.step (hpq _ hx) hpar ih

def Anc (ts : List KTag) (x t : Nat) : Prop := Reach ts (fun _ => True) x t

theorem reach_snoc {ts : List KTag} {P : Nat → Prop} {x m t : Nat}
    (h : Reach ts P x m) (hm : P m) (hp : parentOf ts m = some t) :
    Reach ts P x t := by
  induction h with
  | refl m => exact Reach.step hm hp (Reach.refl t)
  | step hx hpar hrest ih => exact Reach.step hx hpar (ih hm hp)

theorem anc_total {ts : List KTag} : ∀ {x a b : Nat},
    Anc ts x a → Anc ts x b → Anc ts a b ∨ Anc ts b a := by
  intro x a b h1
  induction h1 with
  | refl t => intro h2; exact Or.inl h2
  | step hx hpar hrest ih =>
    intro h2
    cases h2 with
    | refl => exact Or.inr (Reach.step True.intro hpar hrest)
    | step hx2 hpar2 h2' =>
      rw [hpar] at hpar2
      injection hpar2 with hpp
      subst hpp
      exact ih h2'

theorem anc_parent_of_ne {ts : List KTag} {a b : Nat} (h : Anc ts a b) (hne : a ≠ b) :
    ∃ p, parentOf ts a = some p ∧ Anc ts p b := by
  cases h with
  | refl => exact absurd rfl hne
  | step hx hpar hrest => exact ⟨_, hpar, hrest⟩

theorem reach_through {ts : List KTag} (hwf : wfTags ts) {P : Nat → Prop} :
    ∀ {x t a : Nat}, Reach ts P x t → Anc ts x a → Anc ts a t → a ≠ t → P a := by
  intro x t a h1
  induction h1 with
  | refl t =>
    intro hxa hat hne
    have h1 := reach_le hwf hxa
    have h2 := reach_le hwf hat
    omega
  | step hx hpar hrest ih =>
    intro hxa hat hne
    rename_i x p t
    by_cases hxa' : x = a
    · subst hxa'; exact hx
    · obtain ⟨p', hpar', hpa⟩ := anc_parent_of_ne hxa hxa'
      rw [hpar] at hpar'
      injection hpar' with hpp
      subst hpp
      exact ih hpa hat hne

/-- The property every tag visited by an `add_children` walk satisfies: it is not
a sentinel and its tag is not clause-marked. -/
def okNode (ts : List KTag) (S : List Nat) (y : Nat) : Prop :=
  S.contains y = false ∧ ∀ c, tagAt ts y = some c → isClauseMarked c = false

/-- The property every tag surviving the resolver satisfies in addition: its key
is not an argument-head key. -/
def okNodeR (ts : List KTag) (ssid : Nat) (keys : List (Nat × Nat)) (S : List Nat)
    (y : Nat) : Prop :=
  okNode ts S y ∧ keys.contains (ssid, y) = false

theorem addChildrenWalk_sound {ts : List KTag} (hwf : wfTags ts) (S : List Nat) :
    ∀ (fuel t x : Nat), x ∈ addChildrenWalk ts S fuel t →
      Reach ts (okNode ts S) x t ∧ x < t := by
  intro fuel
  induction fuel with
  | zero => intro t x hx; exact absurd hx (by simp [addChildrenWalk])
  | succ fuel ih =>
    intro t x hx
    unfold addChildrenWalk at hx
    rw [List.mem_flatMap] at hx
    obtain ⟨c, hc, hxc⟩ := hx
    by_cases hskip : (S.contains c.tagId || isClauseMarked c) = true
    · rw [if_pos hskip] at hxc
      exact absurd hxc (by simp)
    · rw [if_neg hskip] at hxc
      rw [Bool.or_eq_true] at hskip
      push_neg at hskip
      have hcm : c ∈ ts := (List.mem_filter.mp hc).1
      have hcp := child_parentOf hwf hc
      have hok : okNode ts S c.tagId := by
        refine ⟨by simpa using hskip.1, ?_⟩
        intro d hd
        rw [tagAt_of_mem hwf hcm] at hd
        injection hd with hd
        subst hd
        simpa using hskip.2
      rcases List.mem_cons.mp hxc with rfl | hxm
      · exact ⟨Reach.step hok hcp.1 (Reach.refl t), hcp.2⟩
      · obtain ⟨hr, hlt⟩ := ih c.tagId x hxm
        exact ⟨reach_snoc hr hok hcp.1, lt_trans hlt hcp.2⟩

theorem resolvedWalk_sound {ts : List KTag} (hwf : wfTags ts) (ssid : Nat)
    (keys : List (Nat × Nat)) (S : List Nat) :
    ∀ (fuel t x : Nat), x ∈ resolvedWalk ts ssid keys S fuel t →
      Reach ts (okNodeR ts ssid keys S) x t ∧ x < t := by
  intro fuel
  induction fuel with
  | zero => intro t x hx; exact absurd hx (by simp [resolvedWalk])
  | succ fuel ih =>
    intro t x hx
    unfold resolvedWalk at hx
    rw [List.mem_flatMap] at hx
    obtain ⟨c, hc, hxc⟩ := hx
    by_cases hskip : (S.contains c.tagId || isClauseMarked c) = true
    · rw [if_pos hskip] at hxc
      exact absurd hxc (by simp)
    · rw [if_neg hskip] at hxc
      by_cases hkey : keys.contains (ssid, c.tagId) = true
      · rw [if_pos hkey] at hxc
        exact absurd hxc (by simp)
      · rw [if_neg hkey] at hxc
        rw [Bool.or_eq_true] at hskip
        push_neg at hskip
        have hcm : c ∈ ts := (List.mem_filter.mp hc).1
        have hcp := child_parentOf hwf hc
        have hok : okNodeR ts ssid keys S c.tagId := by
          refine ⟨⟨by simpa using hskip.1, ?_⟩, by simpa using hkey⟩
          intro d hd
          rw [tagAt_of_mem hwf hcm] at hd
          injection hd with hd
          subst hd
          simpa using hskip.2
        rcases List.mem_cons.mp hxc with rfl | hxm
        · exact ⟨Reach.step hok hcp.1 (Reach.refl t), hcp.2⟩
        · obtain ⟨hr, hlt⟩ := ih c.tagId x hxm
          exact ⟨reach_snoc hr hok hcp.1, lt_trans hlt hcp.2⟩

theorem flatMap_sublist {α β : Type} (l : List α) (f g : α → List β)
    (h : ∀ a ∈ l, (f a).Sublist (g a)) : (l.flatMap f).Sublist (l.flatMap g) := by
  induction l with
  | nil => simp
  | cons a rest ih =>
    rw [List.flatMap_cons, List.flatMap_cons]
    exact List.Sublist.append (h a (by simp)) (ih fun b hb => h b (by simp [hb]))

theorem resolvedWalk_sublist (ts : List KTag) (ssid : Nat) (keys : List (Nat × Nat))
    (S : List Nat) : ∀ (fuel t : Nat),
    (resolvedWalk ts ssid keys S fuel t).Sublist (addChildrenWalk ts S fuel t) := by
  intro fuel
  induction fuel with
  | zero => intro t; simp [resolvedWalk, addChildrenWalk]
  | succ fuel ih =>
    intro t
    unfold resolvedWalk addChildrenWalk
    refine flatMap_sublist _ _ _ fun c _ => ?_
    by_cases hskip : (S.contains c.tagId || isClauseMarked c) = true
    · rw [if_pos hskip, if_pos hskip]
    · rw [if_neg hskip, if_neg hskip]
      by_cases hkey : keys.contains (ssid, c.tagId) = true
      · rw [if_pos hkey]
        exact List.nil_sublist _
      · rw [if_neg hkey]
        exact List.Sublist.cons₂ _ (ih c.tagId)

theorem nodup_flatMap_aux {α β : Type} : ∀ (l : List α) (f : α → List β),
    (∀ a ∈ l, (f a).Nodup) →
    (List.Pairwise (fun a b => ∀ x ∈ f a, x ∉ f b) l) →
    (l.flatMap f).Nodup := by
  intro l f
  induction l with
  | nil => intro _ _; simp
  | cons a rest ih =>
    intro h1 h2
    rw [List.flatMap_cons, List.nodup_append]
    rw [List.pairwise_cons] at h2
    refine ⟨h1 a (by simp), ih (fun b hb => h1 b (by simp [hb])) h2.2, ?_⟩
    intro x hx hx2
    rw [List.mem_flatMap] at hx2
    obtain ⟨b, hb, hxb⟩ := hx2
    exact h2.1 b hb x hx hxb

theorem wf_children_pairwise {ts : List KTag} (hwf : wfTags ts) (t : Nat) :
    List.Pairwise (fun c d : KTag => c.tagId ≠ d.tagId) (tagChildren ts t) := by
  have hids : (ts.map KTag.tagId).Nodup := by
    have heq : ts.map KTag.tagId = List.range ts.length := by
      refine List.ext_getElem (by simp) ?_
      intro n h1 h2
      rw [List.getElem_map]
      have := hwf.1 ⟨n, by simpa using h1⟩
      simp only [List.get_eq_getElem] at this
      rw [this, List.getElem_range]
    rw [heq]
    exact List.nodup_range ts.length
  have hpw : List.Pairwise (fun c d : KTag => c.tagId ≠ d.tagId) ts := by
    rw [List.Nodup, List.pairwise_map] at hids
    exact hids
  exact List.Pairwise.sublist (List.filter_sublist ts) hpw

theorem addChildrenWalk_nodup {ts : List KTag} (hwf : wfTags ts) (S : List Nat) :
    ∀ (fuel t : Nat), (addChildrenWalk ts S fuel t).Nodup := by
  intro fuel
  induction fuel with
  | zero => intro t; simp [addChildrenWalk]
  | succ fuel ih =>
    intro t
    unfold addChildrenWalk
    refine nodup_flatMap_aux _ _ ?_ ?_
    · intro c _
      by_cases hskip : (S.contains c.tagId || isClauseMarked c) = true
      · rw [if_pos hskip]; exact List.nodup_nil
      · rw [if_neg hskip]
        refine List.Nodup.cons ?_ (ih c.tagId)
        intro hmem
        have := (addChildrenWalk_sound hwf S fuel c.tagId c.tagId hmem).2
        omega
    · have hpw := wf_children_pairwise hwf t
      refine hpw.imp_of_mem ?_
      intro c d hc hd hne x hxc hxd
      have hanc1 : Anc ts x c.tagId ∧ x ≤ c.tagId := by
        by_cases hskip : (S.contains c.tagId || isClauseMarked c) = true
        · rw [if_pos hskip] at hxc; exact absurd hxc (by simp)
        · rw [if_neg hskip] at hxc
          rcases List.mem_cons.mp hxc with rfl | hxm
          · exact ⟨Reach.refl _, le_refl _⟩
          · obtain ⟨hr, hlt⟩ := addChildrenWalk_sound hwf S fuel c.tagId x hxm
            exact ⟨reach_weaken (fun _ _ => True.intro) hr, le_of_lt hlt⟩
      have hanc2 : Anc ts x d.tagId ∧ x ≤ d.tagId := by
        by_cases hskip : (S.contains d.tagId || isClauseMarked d) = true
        · rw [if_pos hskip] at hxd; exact absurd hxd (by simp)
        · rw [if_neg hskip] at hxd
          rcases List.mem_cons.mp hxd with rfl | hxm
          · exact ⟨Reach.refl _, le_refl _⟩
          · obtain ⟨hr, hlt⟩ := addChildrenWalk_sound hwf S fuel d.tagId x hxm
            exact ⟨reach_weaken (fun _ _ => True.intro) hr, le_of_lt hlt⟩
      have hcp := child_parentOf hwf hc
      have hdp := child_parentOf hwf hd
      rcases anc_total hanc1.1 hanc2.1 with hcd | hdc
      · obtain ⟨p, hp, hpd⟩ := anc_parent_of_ne hcd hne
        rw [hcp.1] at hp
        injection hp with hp
        subst hp
        have := reach_le hwf hpd
        omega
      · obtain ⟨p, hp, hpc⟩ := anc_parent_of_ne hdc (Ne.symm hne)
        rw [hdp.1] at hp
        injection hp with hp
        subst hp
        have := reach_le hwf hpc
        omega

theorem compoundWalk_nil {ts : List KTag}
    (hnoc : ∀ c ∈ ts, hasFeatureKey c.features "複合辞" = false) :
    ∀ (fuel t : Nat), compoundWalk ts fuel t = [] := by
  intro fuel t
  cases fuel with
  | zero => rfl
  | succ fuel =>
    unfold compoundWalk
    cases hnt : tagAt ts (t + 1) with
    | none => rfl
    | some nt =>
      have hmem := (tagAt_mem hnt).1
      have hcomp : isCompoundTag nt = false := by
        unfold isCompoundTag
        rw [hnoc nt hmem]
        rfl
      dsimp only
      rw [hcomp]
      rfl

theorem flatMap_eq_map_of_singleton {α β : Type} (l : List α) (f : α → List β)
    (g : α → β) (h : ∀ a ∈ l, f a = [g a]) : l.flatMap f = l.map g := by
  induction l with
  | nil => rfl
  | cons a rest ih =>
    rw [List.flatMap_cons, List.map_cons, h a (by simp),
      ih fun b hb => h b (by simp [hb])]
    rfl

theorem argSentinelKeys_eq {w : List (Nat × List KTag)} {ev : PEvent} {a : PArg}
    (hnoc : ∀ c ∈ lookupSent w (argSsid ev a), hasFeatureKey c.features "複合辞" = false) :
    argSentinelKeys w ev a = [(argSsid ev a, a.tid)] := by
  unfold argSentinelKeys
  by_cases hom : argIsOmitted a = true
  · rw [if_pos hom]
  · rw [if_neg hom]
    cases hnt : tagAt (lookupSent w (argSsid ev a)) (a.tid + 1) with
    | none => rfl
    | some nt =>
      have hmem := (tagAt_mem hnt).1
      have hcomp : isCompoundTag nt = false := by
        unfold isCompoundTag
        rw [hnoc nt hmem]
        rfl
      dsimp only
      rw [hcomp]
      rfl

theorem allHeadKeys_eq {w : List (Nat × List KTag)} {ev : PEvent}
    (hnoc : ∀ a ∈ ev.args, ∀ c ∈ lookupSent w (argSsid ev a),
      hasFeatureKey c.features "複合辞" = false) :
    allHeadKeys w ev = ev.args.map fun a => (argSsid ev a, a.tid) := by
  unfold allHeadKeys
  exact flatMap_eq_map_of_singleton _ _ _ fun a ha => argSentinelKeys_eq (hnoc a ha)

theorem argSpanResolvedKeys_eq {w : List (Nat × List KTag)} {ev : PEvent} {a : PArg}
    (keys : List (Nat × Nat))
    (hnoc : ∀ c ∈ lookupSent w (argSsid ev a), hasFeatureKey c.features "複合辞" = false)
    (hom : argIsOmitted a = false) :
    argSpanResolvedKeys w ev keys a
      = (argSsid ev a, a.tid) ::
          (resolvedWalk (lookupSent w (argSsid ev a)) (argSsid ev a) keys []
              (lookupSent w (argSsid ev a)).length a.tid).map
            fun x => (argSsid ev a, x) := by
  unfold argSpanResolvedKeys
  rw [if_neg (by rw [hom]; simp)]
  cases hnt : tagAt (lookupSent w (argSsid ev a)) (a.tid + 1) with
  | none => simp
  | some nt =>
    have hmem := (tagAt_mem hnt).1
    have hcomp : isCompoundTag nt = false := by
      unfold isCompoundTag
      rw [hnoc nt hmem]
      rfl
    dsimp only
    rw [hcomp]
    simp

theorem homeSentinel_mem {w : List (Nat × List KTag)} {ev : PEvent} {a : PArg}
    (ha : a ∈ ev.args) (hom : argIsOmitted a = false) (hs : argSsid ev a = ev.ssid)
    (htag : (tagAt (lookupSent w (argSsid ev a)) a.tid).isSome = true) :
    a.tid ∈ homeSentinelTids w ev := by
  unfold homeSentinelTids
  rw [List.mem_map]
  refine ⟨(ev.ssid, a.tid), ?_, rfl⟩
  rw [List.mem_filter]
  refine ⟨?_, by simp⟩
  rw [List.mem_flatMap]
  refine ⟨a, ha, ?_⟩
  unfold argSentinelTags
  have hE : (a.flag == "E") = false := by
    unfold argIsOmitted at hom
    rcases Bool.or_eq_false_iff.mp hom with ⟨h1, _⟩
    exact h1
  have hO : (a.flag == "O") = false := by
    unfold argIsOmitted at hom
    rcases Bool.or_eq_false_iff.mp hom with ⟨_, h2⟩
    exact h2
  rw [hE, hO]
  dsimp only
  rw [hs] at htag ⊢
  cases hc : tagAt (lookupSent w ev.ssid) a.tid with
  | none => rw [hc] at htag; exact absurd htag (by simp)
  | some c =>
    cases hnt : tagAt (lookupSent w ev.ssid) (a.tid + 1) with
    | none => simp
    | some nt =>
      by_cases hcm : isCompoundTag nt = true <;> simp [hcm]

theorem reach_start {ts : List KTag} {P : Nat → Prop} {x t : Nat}
    (h : Reach ts P x t) (hne : x ≠ t) : P x ∧ ∃ p, parentOf ts x = some p := by
  cases h with
  | refl => exact absurd rfl hne
  | step hx hpar hrest => exact ⟨hx, _, hpar⟩

theorem parentOf_isSome {ts : List KTag} {x p : Nat} (h : parentOf ts x = some p) :
    ∃ c, tagAt ts x = some c := by
  unfold parentOf at h
  cases htag : tagAt ts x with
  | none => rw [htag] at h; exact absurd h (by simp)
  | some c => exact ⟨c, rfl⟩

theorem optionAll_true {o : Option KTag} {p : KTag → Bool} (h : o.all p = true)
    {c : KTag} (hc : o = some c) : p c = true := by
  subst hc
  simpa using h

theorem contains_true_of_mem {l : List Nat} {a : Nat} (h : a ∈ l) :
    l.contains a = true := by simpa using h

theorem containsPair_true_of_mem {l : List (Nat × Nat)} {a : Nat × Nat} (h : a ∈ l) :
    l.contains a = true := by simpa using h

theorem argSpan_nodup {w : List (Nat × List KTag)} {ev : PEvent}
    (keys : List (Nat × Nat)) {a : PArg}
    (hwf : wfTags (lookupSent w (argSsid ev a)))
    (hnoca : ∀ c ∈ lookupSent w (argSsid ev a), hasFeatureKey c.features "複合辞" = false)
    (hom : argIsOmitted a = false) :
    (argSpanResolvedKeys w ev keys a).Nodup := by
  rw [argSpanResolvedKeys_eq keys hnoca hom]
  rw [List.nodup_cons]
  constructor
  · intro hmem
    rw [List.mem_map] at hmem
    obtain ⟨v, hv, heq⟩ := hmem
    have hlt := (resolvedWalk_sound hwf _ keys [] _ _ _ hv).2
    have hveq : v = a.tid := by
      have := heq
      simp only [Prod.mk.injEq] at this
      exact this.2
    omega
  · refine List.Nodup.map ?_ ?_
    · intro x y hxy
      simpa using hxy
    · exact List.Nodup.sublist (resolvedWalk_sublist _ _ keys [] _ _)
        (addChildrenWalk_nodup hwf [] _ _)


theorem argSpan_disjoint {w : List (Nat × List KTag)} {ev : PEvent}
    {keys : List (Nat × Nat)} {a b : PArg}
    (hwfa : wfTags (lookupSent w (argSsid ev a)))
    (hwfb : wfTags (lookupSent w (argSsid ev b)))
    (hnoca : ∀ c ∈ lookupSent w (argSsid ev a), hasFeatureKey c.features "複合辞" = false)
    (hnocb : ∀ c ∈ lookupSent w (argSsid ev b), hasFeatureKey c.features "複合辞" = false)
    (homa : argIsOmitted a = false) (homb : argIsOmitted b = false)
    (hne : (argSsid ev a, a.tid) ≠ (argSsid ev b, b.tid))
    (hka : (argSsid ev a, a.tid) ∈ keys) (hkb : (argSsid ev b, b.tid) ∈ keys) :
    ∀ x ∈ argSpanResolvedKeys w ev keys a, x ∉ argSpanResolvedKeys w ev keys b := by
  intro x hxa hxb
  rw [argSpanResolvedKeys_eq keys hnoca homa] at hxa
  rw [argSpanResolvedKeys_eq keys hnocb homb] at hxb
  rcases List.mem_cons.mp hxa with rfl | hxa'
  · rcases List.mem_cons.mp hxb with heq | hxb'
    · exact hne heq
    · rw [List.mem_map] at hxb'
      obtain ⟨v, hv, heq⟩ := hxb'
      simp only [Prod.mk.injEq] at heq
      obtain ⟨hss, hvv⟩ := heq
      obtain ⟨hr, hlt⟩ := resolvedWalk_sound hwfb (argSsid ev b) keys [] _ _ _ hv
      have hPv := (reach_start hr (by omega)).1
      have hcon := hPv.2
      rw [hss, hvv] at hcon
      rw [containsPair_true_of_mem hka] at hcon
      exact absurd hcon (by simp)
  · rw [List.mem_map] at hxa'
    obtain ⟨u, hu, hequ⟩ := hxa'
    rcases List.mem_cons.mp hxb with heq | hxb'
    · obtain ⟨hr, hlt⟩ := resolvedWalk_sound hwfa (argSsid ev a) keys [] _ _ _ hu
      have hPu := (reach_start hr (by omega)).1
      have hcon := hPu.2
      rw [← hequ] at heq
      simp only [Prod.mk.injEq] at heq
      obtain ⟨hss, huu⟩ := heq
      rw [hss, huu] at hcon
      rw [containsPair_true_of_mem hkb] at hcon
      exact absurd hcon (by simp)
    · rw [List.mem_map] at hxb'
      obtain ⟨v, hv, heqv⟩ := hxb'
      rw [← hequ] at heqv
      simp only [Prod.mk.injEq] at heqv
      obtain ⟨hss, hvu⟩ := heqv
      rw [hss, hvu] at hv
      obtain ⟨hra, hlta⟩ := resolvedWalk_sound hwfa (argSsid ev a) keys [] _ _ _ hu
      have hab : a.tid ≠ b.tid := by
        intro hcontra
        apply hne
        rw [hcontra, hss]
      have hwfb' : wfTags (lookupSent w (argSsid ev a)) := hwfa
      obtain ⟨hrb, hltb⟩ := resolvedWalk_sound hwfa (argSsid ev a) keys [] _ _ _ hv
      have hanca : Anc (lookupSent w (argSsid ev a)) u a.tid :=
        reach_weaken (fun _ _ => True.intro) hra
      have hancb : Anc (lookupSent w (argSsid ev a)) u b.tid :=
        reach_weaken (fun _ _ => True.intro) hrb
      rcases anc_total hanca hancb with hcase | hcase
      · have hP := reach_through hwfa hrb hanca hcase hab
        have hcon := hP.2
        rw [containsPair_true_of_mem hka] at hcon
        exact absurd hcon (by simp)
      · have hP := reach_through hwfa hra hancb hcase (Ne.symm hab)
        have hcon := hP.2
        rw [hss] at hkb
        rw [containsPair_true_of_mem hkb] at hcon
        exact absurd hcon (by simp)

theorem predSeg_argSpan_disjoint {w : List (Nat × List KTag)} {ev : PEvent}
    {keys : List (Nat × Nat)} {a : PArg} {r : Nat} {S0 : List Nat}
    (hwfH : wfTags (lookupSent w ev.ssid))
    (hnoca : ∀ c ∈ lookupSent w (argSsid ev a), hasFeatureKey c.features "複合辞" = false)
    (homa : argIsOmitted a = false)
    (hS0 : argSsid ev a = ev.ssid → a.tid ∈ S0)
    (hcl : (tagAt (lookupSent w ev.ssid) r).all isClauseMarked = true)
    (hner : (argSsid ev a, a.tid) ≠ (ev.ssid, r)) :
    ∀ x ∈ ((ev.ssid, r) ::
        (addChildrenWalk (lookupSent w ev.ssid) S0 (lookupSent w ev.ssid).length r).map
          fun v => (ev.ssid, v)),
      x ∉ argSpanResolvedKeys w ev keys a := by
  intro x hxp hxa
  rw [argSpanResolvedKeys_eq keys hnoca homa] at hxa
  rcases List.mem_cons.mp hxp with rfl | hxp'
  · rcases List.mem_cons.mp hxa with heq | hxa'
    · exact hner heq.symm
    · rw [List.mem_map] at hxa'
      obtain ⟨v, hv, heqv⟩ := hxa'
      simp only [Prod.mk.injEq] at heqv
      obtain ⟨hss, hvr⟩ := heqv
      rw [hss, hvr] at hv
      obtain ⟨hr, hlt⟩ := resolvedWalk_sound hwfH ev.ssid keys [] _ _ _ hv
      have hPr := (reach_start hr (by omega)).1
      obtain ⟨p, hpar⟩ := (reach_start hr (by omega)).2
      obtain ⟨c, hc⟩ := parentOf_isSome hpar
      have hmarked := optionAll_true hcl hc
      have hnot := hPr.1.2 c hc
      rw [hmarked] at hnot
      exact absurd hnot (by simp)
  · rw [List.mem_map] at hxp'
    obtain ⟨u, hu, hequ⟩ := hxp'
    rcases List.mem_cons.mp hxa with heq | hxa'
    · rw [← hequ] at heq
      simp only [Prod.mk.injEq] at heq
      obtain ⟨hss, hua⟩ := heq
      obtain ⟨hr, hlt⟩ := addChildrenWalk_sound hwfH S0 _ _ _ hu
      have hPu := (reach_start hr (by omega)).1
      have hcon := hPu.1
      rw [hua] at hcon
      rw [contains_true_of_mem (hS0 hss.symm)] at hcon
      exact absurd hcon (by simp)
    · rw [List.mem_map] at hxa'
      obtain ⟨v, hv, heqv⟩ := hxa'
      rw [← hequ] at heqv
      simp only [Prod.mk.injEq] at heqv
      obtain ⟨hss, hvu⟩ := heqv
      rw [hss, hvu] at hv
      obtain ⟨hrp, hltp⟩ := addChildrenWalk_sound hwfH S0 _ _ _ hu
      obtain ⟨hra, hlta⟩ := resolvedWalk_sound hwfH ev.ssid keys [] _ _ _ hv
      have hne2 : a.tid ≠ r := by
        intro hcontra
        apply hner
        rw [hcontra, hss]
      have hancp : Anc (lookupSent w ev.ssid) u r :=
        reach_weaken (fun _ _ => True.intro) hrp
      have hanca : Anc (lookupSent w ev.ssid) u a.tid :=
        reach_weaken (fun _ _ => True.intro) hra
      rcases anc_total hanca hancp with hcase | hcase
      · have hP := reach_through hwfH hrp hanca hcase hne2
        have hcon := hP.1
        rw [contains_true_of_mem (hS0 hss)] at hcon
        exact absurd hcon (by simp)
      · have hP := reach_through hwfH hra hancp hcase (Ne.symm hne2)
        obtain ⟨p, hpar⟩ := anc_parent_of_ne hcase (Ne.symm hne2)
        obtain ⟨c, hc⟩ := parentOf_isSome hpar.1
        have hmarked := optionAll_true hcl hc
        have hnot := hP.1.2 c hc
        rw [hmarked] at hnot
        exact absurd hnot (by simp)

theorem predHeadEnd_disjoint {w : List (Nat × List KTag)} {ev : PEvent} {S : List Nat}
    (hwfH : wfTags (lookupSent w ev.ssid))
    (horder : ev.headTid ≤ ev.endTid) (hne : ev.headTid ≠ ev.endTid) :
    ∀ x ∈ ((ev.ssid, ev.headTid) ::
        (addChildrenWalk (lookupSent w ev.ssid) S (lookupSent w ev.ssid).length
            ev.headTid).map fun v => (ev.ssid, v)),
      x ∉ ((ev.ssid, ev.endTid) ::
        (addChildrenWalk (lookupSent w ev.ssid) (S ++ [ev.headTid])
            (lookupSent w ev.ssid).length ev.endTid).map fun v => (ev.ssid, v)) := by
  intro x hxh hxe
  rcases List.mem_cons.mp hxh with rfl | hxh'
  · rcases List.mem_cons.mp hxe with heq | hxe'
    · simp only [Prod.mk.injEq] at heq
      exact hne heq.2
    · rw [List.mem_map] at hxe'
      obtain ⟨v, hv, heqv⟩ := hxe'
      simp only [Prod.mk.injEq] at heqv
      rw [heqv.2] at hv
      obtain ⟨hr, hlt⟩ := addChildrenWalk_sound hwfH (S ++ [ev.headTid]) _ _ _ hv
      have hP := (reach_start hr (by omega)).1
      have hcon := hP.1
      rw [contains_true_of_mem (by simp : ev.headTid ∈ S ++ [ev.headTid])] at hcon
      exact absurd hcon (by simp)
  · rw [List.mem_map] at hxh'
    obtain ⟨u, hu, hequ⟩ := hxh'
    obtain ⟨hrh, hlth⟩ := addChildrenWalk_sound hwfH S _ _ _ hu
    rcases List.mem_cons.mp hxe with heq | hxe'
    · rw [← hequ] at heq
      simp only [Prod.mk.injEq] at heq
      omega
    · rw [List.mem_map] at hxe'
      obtain ⟨v, hv, heqv⟩ := hxe'
      rw [← hequ] at heqv
      simp only [Prod.mk.injEq] at heqv
      rw [heqv.2] at hv
      obtain ⟨hre, hlte⟩ := addChildrenWalk_sound hwfH (S ++ [ev.headTid]) _ _ _ hv
      have hanch : Anc (lookupSent w ev.ssid) u ev.headTid :=
        reach_weaken (fun _ _ => True.intro) hrh
      have hance : Anc (lookupSent w ev.ssid) u ev.endTid :=
        reach_weaken (fun _ _ => True.intro) hre
      rcases anc_total hanch hance with hcase | hcase
      · have hP := reach_through hwfH hre hanch hcase hne
        have hcon := hP.1
        rw [contains_true_of_mem (by simp : ev.headTid ∈ S ++ [ev.headTid])] at hcon
        exact absurd hcon (by simp)
      · have := reach_le hwfH hcase
        omega

/-- Claim C7 (amended): omitted arguments can duplicate a key (two zero-anaphora
cases may share one phrase, and only the case dimension distinguishes them), but
for the non-omitted phrases the union of the predicate span and all argument spans
is duplicate-free after `_resolve_duplication` and the sentinel-guarded predicate
dispatch, provided the sentences are well-formed KNP tag trees (positional ids,
head-final dependencies), the event head and end are clause-marked, no tag is a
compound functional expression, every non-omitted argument's tag exists, and the
non-omitted argument targets are pairwise distinct and distinct from the event
head and end. -/
theorem c7_phrase_uniqueness_amended (w : List (Nat × List KTag)) (ev : PEvent)
    (hwfH : wfTags (lookupSent w ev.ssid))
    (hwfA : ∀ a ∈ ev.args, wfTags (lookupSent w (argSsid ev a)))
    (hnocH : ∀ c ∈ lookupSent w ev.ssid, hasFeatureKey c.features "複合辞" = false)
    (hnocA : ∀ a ∈ ev.args, ∀ c ∈ lookupSent w (argSsid ev a),
      hasFeatureKey c.features "複合辞" = false)
    (hclH : (tagAt (lookupSent w ev.ssid) ev.headTid).all isClauseMarked = true)
    (hclE : (tagAt (lookupSent w ev.ssid) ev.endTid).all isClauseMarked = true)
    (horder : ev.headTid ≤ ev.endTid)
    (hargTag : ∀ a ∈ ev.args, argIsOmitted a = false →
      (tagAt (lookupSent w (argSsid ev a)) a.tid).isSome = true)
    (hdist : (ev.args.filter fun a => !argIsOmitted a).Pairwise
      fun a b => (argSsid ev a, a.tid) ≠ (argSsid ev b, b.tid))
    (hdistHE : ∀ a ∈ ev.args, argIsOmitted a = false →
      (argSsid ev a, a.tid) ≠ (ev.ssid, ev.headTid) ∧
      (argSsid ev a, a.tid) ≠ (ev.ssid, ev.endTid)) :
    (eventSpanKeysNonOmitted w ev).Nodup := by
  have hkmem : ∀ a ∈ ev.args, (argSsid ev a, a.tid) ∈ allHeadKeys w ev := by
    intro a ha
    rw [allHeadKeys_eq hnocA]
    exact List.mem_map_of_mem _ ha
  have hmemfil : ∀ a, a ∈ ev.args.filter (fun a => !argIsOmitted a) →
      a ∈ ev.args ∧ argIsOmitted a = false := by
    intro a ha
    rw [List.mem_filter] at ha
    exact ⟨ha.1, by simpa using ha.2⟩
  simp only [eventSpanKeysNonOmitted, predSpanKeys]
  rw [compoundWalk_nil hnocH]
  simp only [List.map_nil, List.append_nil]
  rw [List.append_assoc, List.nodup_append]
  refine ⟨?_, ?_, ?_⟩
  · rw [List.nodup_cons]
    constructor
    · intro hmem
      rw [List.mem_map] at hmem
      obtain ⟨v, hv, heq⟩ := hmem
      have hlt := (addChildrenWalk_sound hwfH _ _ _ _ hv).2
      simp only [Prod.mk.injEq] at heq
      omega
    · exact List.Nodup.map (fun x y hxy => by simpa using hxy)
        (addChildrenWalk_nodup hwfH _ _ _)
  · rw [List.nodup_append]
    refine ⟨?_, ?_, ?_⟩
    · by_cases hHE : ev.headTid = ev.endTid
      · rw [if_neg (fun k => k hHE)]
        exact List.nodup_nil
      · rw [if_pos hHE]
        rw [List.nodup_cons]
        constructor
        · intro hmem
          rw [List.mem_map] at hmem
          obtain ⟨v, hv, heq⟩ := hmem
          have hlt := (addChildrenWalk_sound hwfH _ _ _ _ hv).2
          simp only [Prod.mk.injEq] at heq
          omega
        · exact List.Nodup.map (fun x y hxy => by simpa using hxy)
            (addChildrenWalk_nodup hwfH _ _ _)
    · refine nodup_flatMap_aux _ _ ?_ ?_
      · intro a ha
        obtain ⟨ham, hom⟩ := hmemfil a ha
        exact argSpan_nodup (allHeadKeys w ev) (hwfA a ham) (hnocA a ham) hom
      · refine hdist.imp_of_mem ?_
        intro a b ha hb hne
        obtain ⟨ham, homa⟩ := hmemfil a ha
        obtain ⟨hbm, homb⟩ := hmemfil b hb
        exact argSpan_disjoint (hwfA a ham) (hwfA b hbm) (hnocA a ham) (hnocA b hbm)
          homa homb hne (hkmem a ham) (hkmem b hbm)
    · intro x hx1 hx2
      by_cases hHE : ev.headTid = ev.endTid
      · rw [if_neg (fun k => k hHE)] at hx1
        exact absurd hx1 (by simp)
      · rw [if_pos hHE] at hx1
        rw [List.mem_flatMap] at hx2
        obtain ⟨a, ha, hxa⟩ := hx2
        obtain ⟨ham, homa⟩ := hmemfil a ha
        refine predSeg_argSpan_disjoint hwfH (hnocA a ham) homa
          ?_ hclE ((hdistHE a ham homa).2) x hx1 hxa
        intro hs
        exact List.mem_append_left _ (homeSentinel_mem ham homa hs (hargTag a ham homa))
  · intro x hx1 hx2
    rw [List.mem_append] at hx2
    rcases hx2 with hx2 | hx2
    · by_cases hHE : ev.headTid = ev.endTid
      · rw [if_neg (fun k => k hHE)] at hx2
        exact absurd hx2 (by simp)
      · rw [if_pos hHE] at hx2
        exact predHeadEnd_disjoint hwfH horder hHE x hx1 hx2
    · rw [List.mem_flatMap] at hx2
      obtain ⟨a, ha, hxa⟩ := hx2
      obtain ⟨ham, homa⟩ := hmemfil a ha
      refine predSeg_argSpan_disjoint hwfH (hnocA a ham) homa
        ?_ hclH ((hdistHE a ham homa).1) x hx1 hxa
      intro hs
      exact homeSentinel_mem ham homa hs (hargTag a ham homa)

def c7GW : List (Nat × List KTag) :=
  [(0, [⟨0, 2, "D", []⟩, ⟨1, 2, "D", []⟩, ⟨2, -1, "D", ["節-主辞", "節-区切"]⟩])]

def c7GEv : PEvent := ⟨0, 2, 2, [⟨"ガ", "C", 0, 0⟩]⟩

/-- Witness for claim C7 (amended): a three-phrase sentence whose predicate is
clause-marked, with one direct argument, satisfies every hypothesis, and the
theorem yields duplicate-freeness of its non-omitted span keys. -/
theorem c7_phrase_uniqueness_amended_witness :
    wfTags (lookupSent c7GW c7GEv.ssid) ∧
    (∀ a ∈ c7GEv.args, wfTags (lookupSent c7GW (argSsid c7GEv a))) ∧
    (∀ c ∈ lookupSent c7GW c7GEv.ssid, hasFeatureKey c.features "複合辞" = false) ∧
    (∀ a ∈ c7GEv.args, ∀ c ∈ lookupSent c7GW (argSsid c7GEv a),
      hasFeatureKey c.features "複合辞" = false) ∧
    (tagAt (lookupSent c7GW c7GEv.ssid) c7GEv.headTid).all isClauseMarked = true ∧
    (tagAt (lookupSent c7GW c7GEv.ssid) c7GEv.endTid).all isClauseMarked = true ∧
    c7GEv.headTid ≤ c7GEv.endTid ∧
    (∀ a ∈ c7GEv.args, argIsOmitted a = false →
      (tagAt (lookupSent c7GW (argSsid c7GEv a)) a.tid).isSome = true) ∧
    (c7GEv.args.filter fun a => !argIsOmitted a).Pairwise
      (fun a b => (argSsid c7GEv a, a.tid) ≠ (argSsid c7GEv b, b.tid)) ∧
    (∀ a ∈ c7GEv.args, argIsOmitted a = false →
      (argSsid c7GEv a, a.tid) ≠ (c7GEv.ssid, c7GEv.headTid) ∧
      (argSsid c7GEv a, a.tid) ≠ (c7GEv.ssid, c7GEv.endTid)) ∧
    (eventSpanKeysNonOmitted c7GW c7GEv).Nodup :=
  ⟨by unfold wfTags; decide, by unfold wfTags; decide, by decide, by decide, by decide,
   by decide, by decide, by decide, by decide, by decide,
   c7_phrase_uniqueness_amended c7GW c7GEv (by unfold wfTags; decide)
     (by unfold wfTags; decide) (by decide) (by decide) (by decide) (by decide)
     (by decide) (by decide) (by decide) (by decide)⟩
